import Mathlib

/-!
# urlfilter: IP range conversion, domain name validation, IP rules, DNS engine

A shallow embedding of `filterutil/util.go`, `rules/ip_rule.go` and
`dns_engine.go`.

Conventions of the embedding.

* Go strings are byte sequences: `GoString` is a list of byte values, `str`
  turns a Lean string literal into its UTF-8 bytes.
* `uint32` values are natural numbers reduced modulo `2 ^ 32` wherever the Go
  arithmetic can overflow; `int` values are integers, wrapped to 64 bits where
  they can overflow. The counters of rules (`RulesCount`) count rules held in
  memory and are kept as integers without wrap-around.
* A Go map is given by its entries where the code ranges over it (`IPRangers`)
  and by the value under each key where it does not (`lookupTable`); a nil
  pointer or nil map is `none`, a nil slice is the empty list.
* Conversions from float64 to integers whose value does not fit the integer
  type are those of the gc compiler on 64-bit targets (see `floorLog2` and
  `pow2u32`).
* A Go function that can loop, panic or exit yields an `Outcome`; a loop is
  run for a given number of passes (`fuel`), and `Outcome.running` says that
  the loop had not ended by then.
* Errors are kept as the text that names their kind.
-/

namespace Urlfilter

/-! ## Values shared by the packages -/

/-- Go strings are sequences of bytes. -/
abbrev GoString := List Nat

/-- UTF-8 bytes of one character. -/
def utf8Bytes (c : Char) : List Nat :=
  let n := c.toNat
  if n < 0x80 then [n]
  else if n < 0x800 then [0xC0 + n / 64, 0x80 + n % 64]
  else if n < 0x10000 then [0xE0 + n / 4096, 0x80 + n / 64 % 64, 0x80 + n % 64]
  else [0xF0 + n / 262144, 0x80 + n / 4096 % 64, 0x80 + n / 64 % 64, 0x80 + n % 64]

/-- The Go string written as the Lean literal `s`. -/
def str (s : String) : GoString :=
  s.data.flatMap utf8Bytes

/-- How a call of a Go function ends. -/
inductive Outcome (α : Type) where
  /-- The function returned `a`. -/
  | ret (a : α)
  /-- A run-time panic (nil pointer dereference). -/
  | panicked
  /-- The process was ended by `log.Fatalf`. -/
  | fatal
  /-- The loop was still running when the iteration budget was used up. -/
  | running
deriving DecidableEq, Repr

/-- A `net.IP` as far as the code can tell addresses apart: `v4 a` is an
address whose `To4()` is non-nil, `a` being its big-endian `uint32` value;
`v6 a` is a 16-byte address that is not an IPv4 one, `a` its big-endian value. -/
inductive IP where
  | v4 (a : Nat)
  | v6 (a : Nat)
deriving DecidableEq, Repr

/-- A `net.IPNet`: network number and mask as big-endian integers, and the
length of the mask in bits (32 for IPv4 text, 128 for IPv6 text). -/
structure IPNet where
  IP : Nat
  Mask : Nat
  bits : Nat
deriving DecidableEq, Repr

/-- Value of `net.CIDRMask(ones, bits)`: `ones` one-bits followed by zeros. -/
def CIDRMask (ones bits : Nat) : Nat :=
  2 ^ bits - 2 ^ (bits - ones)

/-- `IPNet.Contains` for an IPv4 address given by its `uint32` value. -/
def IPNet.Contains4 (n : IPNet) (a : Nat) : Bool :=
  n.bits == 32 && (n.IP &&& n.Mask == a &&& n.Mask)

/-! ## filterutil: IPv4RangeToCIDR -/

/-- The table `cidrToMask` of util.go. -/
def cidrToMask : List Nat := [
  0x00000000, 0x80000000, 0xC0000000,
  0xE0000000, 0xF0000000, 0xF8000000,
  0xFC000000, 0xFE000000, 0xFF000000,
  0xFF800000, 0xFFC00000, 0xFFE00000,
  0xFFF00000, 0xFFF80000, 0xFFFC0000,
  0xFFFE0000, 0xFFFF0000, 0xFFFF8000,
  0xFFFFC000, 0xFFFFE000, 0xFFFFF000,
  0xFFFFF800, 0xFFFFFC00, 0xFFFFFE00,
  0xFFFFFF00, 0xFFFFFF80, 0xFFFFFFC0,
  0xFFFFFFE0, 0xFFFFFFF0, 0xFFFFFFF8,
  0xFFFFFFFC, 0xFFFFFFFE, 0xFFFFFFFF]

/-- `IPv4ToLong`: the `uint32` of an IPv4 address, an error for any other. -/
def IPv4ToLong : IP → Except String Nat
  | .v4 a => .ok a
  | .v6 _ => .error "ip must be a ipv4 address"

/-- The inner loop of `IPv4RangeToCIDR` (lines 181-190): `j` counts the
remaining iterations, `maxSize` is decremented while `startAddr` is unchanged
by the mask `cidrToMask[maxSize-1]`. -/
def alignLoop (startAddr : Nat) : Nat → Nat → Nat
  | 0, maxSize => maxSize
  | j + 1, maxSize =>
    let mask := cidrToMask.getD (maxSize - 1) 0
    let maskedBase := startAddr &&& mask
    if maskedBase != startAddr then maxSize
    else alignLoop startAddr j (maxSize - 1)

/-- The least `int64`. -/
def minInt64 : Int := -(2 ^ 63)

/-- Two's complement wrap-around of `int` arithmetic (64 bits). -/
def wrapInt64 (x : Int) : Int :=
  (x + 2 ^ 63) % 2 ^ 64 - 2 ^ 63

/-- Integer binary logarithm by repeated halving, exact for `n < 2 ^ fuel`. -/
def ilog2 : Nat → Nat → Nat
  | 0, _ => 0
  | fuel + 1, n => if n < 2 then 0 else ilog2 fuel (n / 2) + 1

/-- Value of `int(math.Floor(math.Log(float64(n)) / math.Log(2)))` for a
`uint32` value `n`. For `1 ≤ n < 2 ^ 32` the quotient of the two float64
logarithms lies strictly between two integers unless `n` is a power of two,
where it is that integer or one ulp above it, so the floor is the integer
binary logarithm. For `n = 0` the logarithm is `-Inf`, and the conversion of
`-Inf` to `int` yields the least `int64` on 64-bit targets. -/
def floorLog2 (n : Nat) : Int :=
  if n = 0 then minInt64 else (ilog2 32 n : Int)

/-- The network that `net.ParseCIDR` returns for the text
`LongToIPv4(a) + "/" + strconv.Itoa(maxSize)`, and `none` (a nil `*IPNet`)
when the prefix length is not within `0..32`; `ParseCIDR_LongToIPv4` below
relates it to the parser applied to that text. -/
def parseCIDR4 (a : Nat) (maxSize : Int) : Option IPNet :=
  if 0 ≤ maxSize ∧ maxSize ≤ 32 then
    some { IP := a &&& CIDRMask maxSize.toNat 32, Mask := CIDRMask maxSize.toNat 32, bits := 32 }
  else none

/-- Variables of the outer loop of `IPv4RangeToCIDR`. -/
structure LoopState where
  i : Nat
  startAddr : Nat
  cidrList : List IPNet
deriving DecidableEq, Repr

/-- Decrement of a `uint32` (`i--`), wrapping from 0 to `2 ^ 32 - 1`. -/
@[irreducible]
def dec32 (i : Nat) : Nat :=
  (i + 2 ^ 32 - 1) % 2 ^ 32

/-- Sum of two `uint32` values, modulo `2 ^ 32`. -/
@[irreducible]
def add32 (a b : Nat) : Nat :=
  (a + b) % 2 ^ 32

/-- Difference of two `uint32` values, modulo `2 ^ 32`. -/
@[irreducible]
def sub32 (a b : Nat) : Nat :=
  (a + 2 ^ 32 - b) % 2 ^ 32

/-- Value of `uint32(math.Pow(2, float64(k)))` for `0 ≤ k ≤ 32`: the power is
exact in float64 and the conversion keeps the low 32 bits of the integer. -/
@[irreducible]
def pow2u32 (k : Nat) : Nat :=
  2 ^ k % 2 ^ 32

/-- Lines 180-198 and 202 of the loop body: the block emitted for the current
`startAddr` and the new value of `startAddr`. `none` is the nil dereference
`*n` after a failed `net.ParseCIDR`. -/
@[irreducible]
def nextBlock (endAddr startAddr : Nat) : Option (IPNet × Nat) :=
  let maxSize0 : Int := (alignLoop startAddr 32 32 : Nat)
  let x := floorLog2 (add32 (sub32 endAddr startAddr) 1)
  let maxDiff := wrapInt64 (32 - x)
  let maxSize := if maxSize0 < maxDiff then maxDiff else maxSize0
  match parseCIDR4 startAddr maxSize with
  | none => none
  | some n => some (n, add32 startAddr (pow2u32 (32 - maxSize).toNat))

/-- One pass through the body of the outer loop (lines 180-202) followed by
the post statement `i--`. -/
@[irreducible]
def loopBody (endAddr : Nat) (s : LoopState) : Option LoopState :=
  match nextBlock endAddr s.startAddr with
  | none => none
  | some (n, start') =>
    some { i := dec32 s.i, startAddr := start', cidrList := s.cidrList ++ [n] }

/-- The outer loop `for i := endAddr; i >= startAddr; i--` run for at most
`fuel` iterations. -/
def rangeLoop (endAddr : Nat) : Nat → LoopState → Outcome (List IPNet)
  | 0, s => if s.i < s.startAddr then .ret s.cidrList else .running
  | fuel + 1, s =>
    if s.i < s.startAddr then .ret s.cidrList
    else match loopBody endAddr s with
      | none => .panicked
      | some s' => rangeLoop endAddr fuel s'

/-- The function `IPv4RangeToCIDR` of util.go. The result pairs the block list
with the error (`none` for nil). The outer loop is given `fuel` iterations. -/
def IPv4RangeToCIDR (fuel : Nat) (start end_ : IP) : Outcome (List IPNet × Option String) :=
  match IPv4ToLong start with
  | .error _ => .fatal
  | .ok startAddr =>
    match IPv4ToLong end_ with
    | .error _ => .fatal
    | .ok endAddr =>
      if startAddr > endAddr then
        .ret ([], some "start of IP range must be less than the end")
      else
        match rangeLoop endAddr fuel { i := endAddr, startAddr := startAddr, cidrList := [] } with
        | .ret l => .ret (l, none)
        | .panicked => .panicked
        | .fatal => .fatal
        | .running => .running

/-- Dotted-quad address as a `uint32` value. -/
def ipv4 (a b c d : Nat) : Nat :=
  a * 2 ^ 24 + b * 2 ^ 16 + c * 2 ^ 8 + d

/-- State after `n` further passes of the outer loop; `none` when the loop
condition fails or the body panics before that. -/
def passes (endAddr : Nat) : Nat → LoopState → Option LoopState
  | 0, s => some s
  | n + 1, s =>
    if s.i < s.startAddr then none
    else (loopBody endAddr s).bind (passes endAddr n)


/-- The block of `2 ^ k` addresses that starts at `lo`, that is `lo/(32-k)`. -/
def blockAt (lo k : Nat) : IPNet :=
  { IP := lo, Mask := CIDRMask (32 - k) 32, bits := 32 }

/-- The blocks of the list are aligned and follow one another without gap or
overlap from the address `lo` up to, but not including, `hi`. -/
def Chain : Nat → Nat → List IPNet → Prop
  | lo, hi, [] => lo = hi
  | lo, hi, b :: l =>
    ∃ k, k ≤ 32 ∧ b = blockAt lo k ∧ 2 ^ k ∣ lo ∧ lo + 2 ^ k ≤ hi ∧ Chain (lo + 2 ^ k) hi l

/-- No IPv4 address lies in both blocks. -/
def Disjoint4 (b b' : IPNet) : Prop :=
  ∀ a, a < 2 ^ 32 → ¬ (b.Contains4 a = true ∧ b'.Contains4 a = true)

/-- The blocks emitted in `m` passes that begin with `startAddr = 2 ^ j` when
every pass doubles `startAddr`. -/
def climbBlocks : Nat → Nat → List IPNet
  | _, 0 => []
  | j, m + 1 => blockAt (2 ^ j) j :: climbBlocks (j + 1) m

/-! ## filterutil: IsDomainName -/

/-- `(c >= 'a' && c <= 'z') || (c >= 'A' && c <= 'Z')`. -/
def isLetter (c : Nat) : Bool :=
  (97 ≤ c && c ≤ 122) || (65 ≤ c && c ≤ 90)

/-- `c >= '0' && c <= '9'`. -/
def isDigit (c : Nat) : Bool :=
  48 ≤ c && c ≤ 57

/-- The bytes of the string constant `"xn--"`. -/
def xnMarker : List Nat := [120, 110, 45, 45]

/-- Local variables of `IsDomainName` (`prevChar` is a byte, initially 0). -/
structure DomainState where
  st : Nat
  nLabel : Nat
  nLevel : Nat
  prevChar : Nat
  charOnly : Bool
  xn : Nat
deriving DecidableEq, Repr

/-- Values of the variables before the loop (lines 71-76). -/
def domainInit : DomainState :=
  { st := 0, nLabel := 0, nLevel := 1, prevChar := 0, charOnly := true, xn := 0 }

/-- One pass of the `switch` inside the loop (lines 80-135) for the byte `c`;
`none` is `return false`. Bytes: `'.'` is 46, `'-'` is 45, `'x'` is 120,
`'X'` is 88. -/
def domainStep (s : DomainState) (c : Nat) : Option DomainState :=
  if s.st = 0 ∨ s.st = 1 then
    if !(isLetter c) then
      if !(isDigit c) then none
      else some { s with charOnly := false, st := 2, nLabel := 1 }
    else if c = 120 ∨ c = 88 then
      some { s with xn := 1, st := 2, nLabel := 1 }
    else
      some { s with st := 2, nLabel := 1 }
  else if s.st = 2 then
    if c = 46 then
      if s.prevChar = 45 then none
      else some { s with nLevel := s.nLevel + 1, st := 0, charOnly := true, xn := 0 }
    else if s.nLabel = 63 then none
    else if !(isLetter c) && !(isDigit c || c == 45) then none
    else
      some { s with
        charOnly := if !(isLetter c) then false else s.charOnly
        xn :=
          if s.xn > 0 then
            if s.xn < 4 then
              if c = xnMarker.getD s.xn 0 then s.xn + 1 else 0
            else s.xn + 1
          else s.xn
        prevChar := c
        nLabel := s.nLabel + 1 }
  else some s

/-- The loop `for _, c := range []byte(name)`; `none` is `return false`. -/
def domainScan : DomainState → GoString → Option DomainState
  | s, [] => some s
  | s, c :: cs =>
    match domainStep s c with
    | none => none
    | some s' => domainScan s' cs

/-- The test after the loop (lines 138-145), `len("xn--wwww")` being 8. -/
def domainFinal (s : DomainState) : Bool :=
  if s.st ≠ 2 ∨ s.nLabel = 1 ∨ s.nLevel = 1 ∨ (!s.charOnly ∧ s.xn < 8) then false
  else true

/-- The function `IsDomainName` of util.go. -/
def IsDomainName (name : GoString) : Bool :=
  if name.length > 253 then false
  else
    match domainScan domainInit name with
    | none => false
    | some s => domainFinal s

/-- The labels of a name: the pieces between the `'.'` bytes, as
`List.splitOn` gives them (`labels_eq_splitOn`). -/
def labels : GoString → List GoString
  | [] => [[]]
  | c :: cs =>
    if c = 46 then [] :: labels cs
    else
      match labels cs with
      | [] => [[c]]
      | l :: ls => (c :: l) :: ls

/-- A byte of `[A-Za-z0-9-]`. -/
def isLabelChar (c : Nat) : Bool :=
  isLetter c || isDigit c || c == 45

/-- A byte of `[A-Za-z0-9]`. -/
def isAlnum (c : Nat) : Bool :=
  isLetter c || isDigit c

/-- The final label as the rules describe it: letters only, or the marker
`"xn--"` followed by alphanumerics only, with at least 8 bytes in all. -/
def tldWellFormed (l : GoString) : Bool :=
  l.all isLetter ||
    (xnMarker.isPrefixOf l && (l.drop 4).all isAlnum && decide (8 ≤ l.length))

/-- The rules that the specification lists for a domain name: at most 253
bytes, at least 2 labels, every label of 1 to 63 bytes from `[A-Za-z0-9-]`,
no label beginning or ending with `'-'`, and a well-formed final label. -/
def DomainRules (name : GoString) : Prop :=
  name.length ≤ 253 ∧ 2 ≤ (labels name).length ∧
    (∀ l ∈ labels name, 1 ≤ l.length ∧ l.length ≤ 63 ∧ ∀ c ∈ l, isLabelChar c = true) ∧
    (∀ l ∈ labels name, l.head? ≠ some 45 ∧ l.getLast? ≠ some 45) ∧
    tldWellFormed ((labels name).getLastD []) = true

instance (name : GoString) : Decidable (DomainRules name) := by
  unfold DomainRules
  infer_instance

/-- Lines 121-131: the new value of `xn` after a byte `c` inside a label. -/
def xnNext (xn c : Nat) : Nat :=
  if xn > 0 then
    if xn < 4 then
      if c = xnMarker.getD xn 0 then xn + 1 else 0
    else xn + 1
  else xn

/-- The value of `xn` after the bytes `l` inside a label. -/
def xnRun (xn : Nat) (l : GoString) : Nat :=
  l.foldl xnNext xn

/-- A label of 1 to 63 bytes, all from `[A-Za-z0-9-]`. -/
def LabelOK (l : GoString) : Prop :=
  1 ≤ l.length ∧ l.length ≤ 63 ∧ ∀ c ∈ l, isLabelChar c = true

/-- The labels still to be scanned meet the rules, the last of them being the
final label of the name with at least 2 bytes. -/
def RestOK : List GoString → Prop
  | [] => False
  | [l] => LabelOK l ∧ l.head? ≠ some 45 ∧ 2 ≤ l.length ∧ tldWellFormed l = true
  | l :: l' :: ls => LabelOK l ∧ l.head? ≠ some 45 ∧ l.getLast? ≠ some 45 ∧ RestOK (l' :: ls)

/-- What the rest `l` of the current label and the labels `ls` after it must
satisfy for the scan to accept from the state `s`. -/
def TailOK (s : DomainState) (l : GoString) : List GoString → Prop
  | [] => 2 ≤ s.nLabel + l.length ∧
      ((s.charOnly = true ∧ l.all isLetter = true) ∨ 8 ≤ xnRun s.xn l)
  | l' :: ls => l.getLast?.getD s.prevChar ≠ 45 ∧ RestOK (l' :: ls)

/-- What an accepting scan from `s` ends in: `k` further dots were passed. -/
def AcceptsFrom (s : DomainState) (bs : GoString) (k : Nat) : Prop :=
  ∃ s', domainScan s bs = some s' ∧ s'.st = 2 ∧ s'.nLabel ≠ 1 ∧
    (s'.charOnly = true ∨ 8 ≤ s'.xn) ∧ s'.nLevel = s.nLevel + k

/-- The final label as the code accepts it: letters only, or `'x'` or `'X'`
followed by `"n--"`, with at least 8 bytes in all. -/
def tldAccepted (l : GoString) : Bool :=
  l.all isLetter ||
    ((l.head? == some 120 || l.head? == some 88) && [110, 45, 45].isPrefixOf (l.drop 1) &&
      decide (8 ≤ l.length))

/-- The variables `charOnly` and `xn` of the state `s` are those that the scan
of the whole label `t` leaves. -/
def FinalTrack (s : DomainState) (t : GoString) : Prop :=
  ∃ c l0, t = c :: l0 ∧ s.charOnly = (isLetter c && l0.all isLetter) ∧
    s.xn = xnRun (if c = 120 ∨ c = 88 then 1 else 0) l0

/-! ## package net: text forms of addresses

The repository calls `net.ParseIP`, `net.ParseCIDR`, `IP.To4`, `IP.String` and
`regexp.Split` of the Go standard library. Their IPv4 behaviour is written out
below after the library (Go 1.22 and later, where both parsers go through
`netip.ParseAddr`); the IPv6 text functions are taken as given in `IPv6Text`. -/

/-- The IPv6 text functions of the library: `parse` is the 128-bit value of an
IPv6 literal without zone (`none` for any other text), `format` is `IP.String`
of a 16-byte address that is not an IPv4 one. -/
structure IPv6Text where
  parse : GoString → Option Nat
  format : Nat → GoString

/-- A `netip.Addr` without zone. -/
inductive Addr where
  | a4 (a : Nat)
  | a6 (a : Nat)
deriving DecidableEq, Repr

/-- `netip.parseIPv4Fields` on the rest `s` of the text: `val`, `pos`, `digLen`
and `fields` as in the library; `first` says that `s` is the whole text,
`prevDot` that the byte before `s` is a dot. -/
def parseIPv4Fields : GoString → Bool → Bool → Nat → Nat → Nat → List Nat → Option (List Nat)
  | [], _, _, val, pos, _, fields =>
    if pos < 3 then none else some (fields ++ [val])
  | c :: cs, first, prevDot, val, pos, digLen, fields =>
    if 48 ≤ c ∧ c ≤ 57 then
      if digLen = 1 ∧ val = 0 then none
      else if val * 10 + (c - 48) > 255 then none
      else parseIPv4Fields cs false false (val * 10 + (c - 48)) pos (digLen + 1) fields
    else if c = 46 then
      if first ∨ cs = [] ∨ prevDot then none
      else if pos = 3 then none
      else parseIPv4Fields cs false true 0 (pos + 1) 0 (fields ++ [val])
    else none

/-- `netip.parseIPv4`: the `uint32` value of a dotted-quad text. -/
def parseIPv4 (s : GoString) : Option Nat :=
  match parseIPv4Fields s true false 0 0 0 [] with
  | some [a, b, c, d] => some (ipv4 a b c d)
  | _ => none

/-- `netip.ParseAddr` for texts without zone: the first `'.'`, `':'` or `'%'`
of the text (bytes 46, 58, 37) decides how all of it is parsed. -/
def parseAddrFrom (v6 : IPv6Text) (s : GoString) : GoString → Option Addr
  | [] => none
  | c :: cs =>
    if c = 46 then (parseIPv4 s).map Addr.a4
    else if c = 58 then (v6.parse s).map Addr.a6
    else if c = 37 then none
    else parseAddrFrom v6 s cs

/-- `netip.ParseAddr`, texts with a zone left out. -/
def ParseAddr (v6 : IPv6Text) (s : GoString) : Option Addr :=
  parseAddrFrom v6 s s

/-- `net.ParseIP`: the result is a 16-byte address, which `To4` turns into an
IPv4 address exactly when its first 12 bytes are the IPv4-in-IPv6 marker. -/
def ParseIP (v6 : IPv6Text) (s : GoString) : Option IP :=
  match ParseAddr v6 s with
  | none => none
  | some (.a4 a) => some (.v4 a)
  | some (.a6 a) => some (if a / 2 ^ 32 = 0xFFFF then .v4 (a % 2 ^ 32) else .v6 a)

/-- `ip.To4() != nil` for a possibly nil address. -/
def isIPv4 : Option IP → Bool
  | some (.v4 _) => true
  | _ => false

/-- Decimal text of a byte (`uitoa`). -/
def uitoa (n : Nat) : GoString :=
  if n < 10 then [48 + n]
  else if n < 100 then [48 + n / 10, 48 + n % 10]
  else [48 + n / 100, 48 + n / 10 % 10, 48 + n % 10]

/-- Dotted-quad text of a `uint32` value: `IP.String` of an IPv4 address. -/
def dotted (a : Nat) : GoString :=
  uitoa (a / 2 ^ 24 % 256) ++ [46] ++ uitoa (a / 2 ^ 16 % 256) ++ [46] ++
    uitoa (a / 2 ^ 8 % 256) ++ [46] ++ uitoa (a % 256)

/-- `IP.String`. -/
def IP.String (v6 : IPv6Text) : IP → GoString
  | .v4 a => dotted a
  | .v6 a => v6.format a

/-- `LongToIPv4` of util.go: the four bytes of the value, most significant
first, as a `net.IP`, and its `String()`. -/
def LongToIPv4 (ipl : Nat) : GoString :=
  dotted ipl

/-- `strconv.Itoa`. -/
def Itoa (n : Int) : GoString :=
  if n < 0 then 45 :: (Nat.toDigits 10 n.natAbs).map Char.toNat
  else (Nat.toDigits 10 n.toNat).map Char.toNat

/-- `dtoi` of package net on a whole text: the number written by a non-empty
run of decimal digits that stays below `0xFFFFFF`. -/
def dtoiFrom : GoString → Nat → Option Nat
  | [], n => some n
  | c :: cs, n =>
    if 48 ≤ c ∧ c ≤ 57 then
      if n * 10 + (c - 48) ≥ 0xFFFFFF then none else dtoiFrom cs (n * 10 + (c - 48))
    else none

/-- The text before and after the first byte `sep` (`strings.Cut`). -/
def cut (sep : Nat) : GoString → Option (GoString × GoString)
  | [] => none
  | c :: cs =>
    if c = sep then some ([], cs)
    else (cut sep cs).map fun p => (c :: p.1, p.2)

/-- `net.ParseCIDR`, the returned network only; `none` stands for the error
result, with which the returned `*IPNet` is nil. -/
def ParseCIDR (v6 : IPv6Text) (s : GoString) : Option IPNet :=
  match cut 47 s with
  | none => none
  | some (addr, mask) =>
    match ParseAddr v6 addr with
    | none => none
    | some a =>
      if mask = [] then none
      else
        match dtoiFrom mask 0 with
        | none => none
        | some n =>
          match a with
          | .a4 x =>
            if n > 32 then none
            else some { IP := x &&& CIDRMask n 32, Mask := CIDRMask n 32, bits := 32 }
          | .a6 x =>
            if n > 128 then none
            else some { IP := x &&& CIDRMask n 128, Mask := CIDRMask n 128, bits := 128 }

/-- Whether the byte `b` occurs in `s` with a byte `a` somewhere before it. -/
def occursBefore (a b : Nat) : GoString → Bool
  | [] => false
  | c :: cs => if c = a then cs.contains b else occursBefore a b cs

/-- `regexp.MustCompile("^(.*?):(.*?)-(.*?)$").Split(s, -1)`. The expression
matches a text from its first to its last byte when the text has no newline
and a `':'` with a `'-'` after it; `Split` returns the pieces around the
matches, here the two empty pieces around the single match of everything. -/
def splitAnnotated (s : GoString) : List GoString :=
  if s = [] then [[]]
  else if !(s.contains 10) && occursBefore 58 45 s then [[], []]
  else [s]

/-- `regexp.MustCompile("^(.*?)-(.*?)$").Split(s, -1)`, as `splitAnnotated`. -/
def splitRange (s : GoString) : List GoString :=
  if s = [] then [[]]
  else if !(s.contains 10) && s.contains 45 then [[], []]
  else [s]

/-! ## rules: IPParser and NewIPRule -/

/-- Result of `IPParser`: the slice (`none` for nil) and the error. -/
abbrev ParseResult := Option (List IPNet) × Option String

/-- The result of `filterutil.IPv4RangeToCIDR` as `IPParser` passes it on;
the slice of that function is never nil. -/
def passRange : Outcome (List IPNet × Option String) → Outcome ParseResult
  | .ret (l, e) => .ret (some l, e)
  | .panicked => .panicked
  | .fatal => .fatal
  | .running => .running

/-- The function `IPParser` of ip_rule.go. -/
def IPParser (v6 : IPv6Text) (fuel : Nat) (pattern : GoString) : Outcome ParseResult :=
  match ParseIP v6 pattern with
  | some (.v4 a) =>
    match ParseCIDR v6 (IP.String v6 (.v4 a) ++ str "::/64") with
    | none => .ret (none, some "invalid CIDR address")
    | some ipNet => .ret (some [ipNet], none)
  | some (.v6 a) =>
    match ParseCIDR v6 (IP.String v6 (.v6 a) ++ str "/32") with
    | none => .ret (none, some "invalid CIDR address")
    | some ipNet => .ret (some [ipNet], none)
  | none =>
    match ParseCIDR v6 pattern with
    | none => .panicked
    | some _ =>
      let itemList := splitAnnotated pattern
      let ipStart := ParseIP v6 (itemList.getD 1 [])
      let ipEnd := ParseIP v6 (itemList.getD 2 [])
      match itemList.length == 3 && isIPv4 ipStart && isIPv4 ipEnd, ipStart, ipEnd with
      | true, some s, some e => passRange (IPv4RangeToCIDR fuel s e)
      | _, _, _ =>
        let itemList := splitRange pattern
        let ipStart := ParseIP v6 (itemList.getD 0 [])
        let ipEnd := ParseIP v6 (itemList.getD 1 [])
        match itemList.length == 2 && isIPv4 ipStart && isIPv4 ipEnd, ipStart, ipEnd with
        | true, some s, some e => passRange (IPv4RangeToCIDR fuel s e)
        | _, _, _ => .ret (none, some "unable to parser, not matches found")

/-- The struct `IPRule`. -/
structure IPRule where
  RuleText : GoString
  FilterListID : Int
  IPNet : List IPNet
deriving DecidableEq, Repr

/-- The function `NewIPRule` of ip_rule.go: a nil rule with the error of the
parser when the parser returns a nil slice, else the rule and a nil error. -/
def NewIPRule (v6 : IPv6Text) (fuel : Nat) (line : GoString) (filterListID : Int) :
    Outcome (Option IPRule × Option String) :=
  match IPParser v6 fuel line with
  | .ret (none, err) => .ret (none, err)
  | .ret (some cidrs, _) =>
    .ret (some { RuleText := line, FilterListID := filterListID, IPNet := cidrs }, none)
  | .panicked => .panicked
  | .fatal => .fatal
  | .running => .running

/-! ## filterutil: ExtractHostname -/

/-- Index of the first place where the byte `a` is followed by the byte `b`
(`strings.Index` with a two-byte text), `none` for -1. -/
def indexPair (a b : Nat) : GoString → Option Nat
  | [] => none
  | [_] => none
  | c :: d :: rest =>
    if c = a ∧ d = b then some 0 else (indexPair a b (d :: rest)).map (· + 1)

/-- Index of the first byte `b` (`strings.Index` with a one-byte text), `none`
for -1. -/
def indexByte (b : Nat) : GoString → Option Nat
  | [] => none
  | c :: cs => if c = b then some 0 else (indexByte b cs).map (· + 1)

/-- The result of `strings.Index` as a Go `int`. -/
def goIndex : Option Nat → Int
  | some i => (i : Int)
  | none => -1

/-- The loop `for i := firstIdx; i < len(url); i++` of lines 34-40, with `n`
passes left: the value of `nextIdx` after the loop, or the panic of an index
expression `url[i]` outside `url`. Bytes: `'/'` is 47, `':'` is 58, `'?'`
is 63. -/
def hostScan (url : GoString) : Nat → Int → Outcome Int
  | 0, _ => .ret 0
  | n + 1, i =>
    if i < 0 then .panicked
    else
      match url[i.toNat]? with
      | none => .panicked
      | some c =>
        if c = 47 ∨ c = 58 ∨ c = 63 then .ret i
        else hostScan url n (i + 1)

/-- The slice expression `url[lo:hi]`, which panics unless
`0 <= lo <= hi <= len(url)`. -/
def goSlice (url : GoString) (lo hi : Int) : Outcome GoString :=
  if 0 ≤ lo ∧ lo ≤ hi ∧ hi ≤ url.length then
    .ret ((url.drop lo.toNat).take (hi.toNat - lo.toNat))
  else .panicked

/-- Lines 33-50 of `ExtractHostname`, from the value of `firstIdx` on. The
loop makes `len(url) - firstIdx` passes unless it breaks or panics. -/
def extractFrom (url : GoString) (firstIdx : Int) : Outcome GoString :=
  match hostScan url ((url.length : Int) - firstIdx).toNat firstIdx with
  | .ret nextIdx0 =>
    let nextIdx : Int := if nextIdx0 = 0 then (url.length : Int) else nextIdx0
    if nextIdx ≤ firstIdx then .ret []
    else goSlice url firstIdx nextIdx
  | .panicked => .panicked
  | .fatal => .fatal
  | .running => .running

/-- The function `ExtractHostname` of util.go. -/
def ExtractHostname (url : GoString) : Outcome GoString :=
  if url = [] then .ret []
  else
    let firstIdx := goIndex (indexPair 47 47 url)
    if firstIdx = -1 then
      let firstIdx := goIndex (indexByte 58 url)
      if firstIdx = -1 then .ret []
      else extractFrom url (firstIdx - 1)
    else extractFrom url (firstIdx + 2)

/-! ## rules: IPEngine

The ranger of package `cidranger` is outside the repository. It is kept here
as the record of the networks handed to its `Insert`, in order; the field
`ranger` is an interface value, and `none` stands for the nil interface, on
which a call of `Insert` panics. Counters of
rules are Go `int`s that count rules held in memory; they are kept as integers
without wrap-around. -/

/-- The struct `IPFilterRanger`. -/
structure IPFilterRanger where
  listID : Int
  hash : GoString
  ranger : Option (List IPNet)
deriving DecidableEq, Repr

/-- The value `m[k]` of a map given by its entries, `none` when the key is
absent. -/
def mapLookup {α : Type} (k : Int) : List (Int × α) → Option α
  | [] => none
  | (k', v) :: rest => if k' = k then some v else mapLookup k rest

/-- The entries of a map after `m[k] = v`: the value under an existing key is
replaced, a new key gets an entry. -/
def mapStore {α : Type} (k : Int) (v : α) : List (Int × α) → List (Int × α)
  | [] => [(k, v)]
  | (k', v') :: rest => if k' = k then (k, v) :: rest else (k', v') :: mapStore k v rest

/-- The struct `IPEngine`. `IPRangers` is `none` for the nil map and the list
of the entries of the map otherwise. -/
structure IPEngine where
  RulesCount : Int
  ruleStorage : Option IPRule
  IPRangers : Option (List (Int × IPFilterRanger))
deriving DecidableEq, Repr

/-- The value `IPEngine{}`. -/
def IPEngine.zero : IPEngine :=
  { RulesCount := 0, ruleStorage := none, IPRangers := none }

/-- The value `IPRule{}`. -/
def IPRule.zero : IPRule :=
  { RuleText := [], FilterListID := 0, IPNet := [] }

/-- The method `IPEngine.Match` of ip_rule.go. The first pass of the loop over
the map returns; over a nil or empty map there is no pass. Go leaves the order
of the passes open: `first` says which entry the loop visits first. -/
def IPEngine.Match (e : IPEngine) (first : Nat) (_hostname : GoString) : IPRule × Bool :=
  match e.IPRangers with
  | none => (IPRule.zero, true)
  | some [] => (IPRule.zero, true)
  | some (r :: rs) =>
    let r := ((r :: rs).getD (first % (rs.length + 1)) r).2
    ({ RuleText := [], FilterListID := r.listID, IPNet := [] }, true)

/-- The loop of lines 72-74 of `AddRule`: each pass reads `e.IPRangers[listID]`
and inserts the network into its ranger. The call panics on a nil ranger,
which is what the map yields under an absent key and what an entry can hold
that `AddRule` did not create. -/
def insertAll (listID : Int) : List IPNet → List (Int × IPFilterRanger) →
    Outcome (List (Int × IPFilterRanger))
  | [], m => .ret m
  | n :: ns, m =>
    match mapLookup listID m with
    | none => .panicked
    | some fr =>
      match fr.ranger with
      | none => .panicked
      | some inserted =>
        insertAll listID ns (mapStore listID { fr with ranger := some (inserted ++ [n]) } m)

/-- The method `IPEngine.AddRule` of ip_rule.go. Reading a nil map finds no key;
the assignment `e.IPRangers[listID] = ...` to a nil map panics. -/
def IPEngine.AddRule (e : IPEngine) (r : IPRule) : Outcome IPEngine :=
  let listID := r.FilterListID
  match e.IPRangers with
  | none => .panicked
  | some m =>
    let m1 :=
      if (mapLookup listID m).isSome then m
      else mapStore listID { listID := 0, hash := [], ranger := some [] } m
    match insertAll listID r.IPNet m1 with
    | .ret m2 => .ret { e with RulesCount := e.RulesCount + 1, IPRangers := some m2 }
    | .panicked => .panicked
    | .fatal => .fatal
    | .running => .running

/-! ## package urlfilter: DNSEngine

`dns_engine.go` calls functions and uses types that are defined in other files
(the rule storage and its scanner, `HostRule`, `NetworkRule`, `NetworkEngine`,
`fastHash`, `NewRequestForHostname`). They are parameters of the embedding:
`NR` is the type `rules.NetworkRule`, `NE` the state of a `NetworkEngine`. -/

/-- The struct `rules.HostRule`; `IP` is `none` for an address that is nil. -/
structure HostRule where
  RuleText : GoString
  FilterListID : Int
  Hostnames : List GoString
  IP : Option IP
deriving DecidableEq, Repr

/-- A rule of the storage, by the cases of the type switches in `NewDNSEngine`. -/
inductive Rule (NR : Type) where
  | ip (r : IPRule)
  | host (r : HostRule)
  | network (r : NR)
  | other

/-- A `filterlist.RuleStorage`: the rules with their storage indices that a
scanner of the storage yields, and the method `RetrieveHostRule` (`none` for
nil). -/
structure RuleStorage (NR : Type) where
  rules : List (Rule NR × Int)
  RetrieveHostRule : Int → Option HostRule

/-- The struct `DNSRequest`. -/
structure DNSRequest where
  Hostname : GoString
  Answer : Bool
  SortedClientTags : List GoString
  ClientIP : GoString
  ClientName : GoString
deriving DecidableEq, Repr

/-- The `rules.Request` that `MatchRequest` hands to the network engine: the
result of `NewRequestForHostname(hostname)` with the three fields that
`MatchRequest` copies into it. -/
structure Request where
  Hostname : GoString
  SortedClientTags : List GoString
  ClientIP : GoString
  ClientName : GoString
deriving DecidableEq, Repr

/-- The struct `DNSResult`; a nil pointer is `none`, a nil slice is `[]`. -/
structure DNSResult (NR : Type) where
  NetworkRule : Option NR
  HostRulesV4 : List HostRule
  HostRulesV6 : List HostRule
  IPRule : Option IPRule
deriving DecidableEq, Repr

/-- The value `DNSResult{}`. -/
def DNSResult.empty {NR : Type} : DNSResult NR :=
  { NetworkRule := none, HostRulesV4 := [], HostRulesV6 := [], IPRule := none }

/-- The functions that dns_engine.go calls and that are defined elsewhere:
`fastHash`, `HostRule.Match`, `NetworkRule.IsHostLevelNetworkRule`, the
`NetworkEngine` literal of line 67, and `addRule`, `Match` and the field
`RulesCount` of a `NetworkEngine`. -/
structure Deps (NE NR : Type) where
  fastHash : GoString → Nat
  hostRuleMatch : HostRule → GoString → Bool
  IsHostLevelNetworkRule : NR → Bool
  newNetworkEngine : RuleStorage NR → NE
  networkAddRule : NE → NR → Int → NE
  networkMatch : NE → Request → Option NR × Bool
  networkRulesCount : NE → Int

/-- The struct `DNSEngine` with both engines set, as `NewDNSEngine` returns
it; the map `lookupTable` is given by the bucket under each hash. -/
structure DNSEngine (NE NR : Type) where
  RulesCount : Int
  networkEngine : NE
  lookupTable : Nat → Option (List Int)
  rulesStorage : RuleStorage NR
  IPEngine : IPEngine
  IPRules : Option IPRule

/-- The loop of `matchLookupTable` over the indices of a bucket;
`matchingRules` holds the rules appended so far. -/
def matchLoop {NE NR : Type} (x : Deps NE NR) (s : RuleStorage NR) (hostname : GoString) :
    List Int → List HostRule → List HostRule
  | [], matchingRules => matchingRules
  | idx :: rest, matchingRules =>
    match s.RetrieveHostRule idx with
    | none => matchLoop x s hostname rest matchingRules
    | some rule =>
      if x.hostRuleMatch rule hostname then matchLoop x s hostname rest (matchingRules ++ [rule])
      else matchLoop x s hostname rest matchingRules

/-- The method `DNSEngine.matchLookupTable`. -/
def DNSEngine.matchLookupTable {NE NR : Type} (x : Deps NE NR) (d : DNSEngine NE NR)
    (hostname : GoString) : List HostRule × Bool :=
  let hash := x.fastHash hostname
  match d.lookupTable hash with
  | none => ([], false)
  | some rulesIndexes =>
    let matchingRules := matchLoop x d.rulesStorage hostname rulesIndexes []
    (matchingRules, decide (matchingRules.length > 0))

/-- The loop of lines 142-152 of `MatchRequest`: every rule of `rr` is a
`*rules.HostRule`, so the type assertion holds in every pass. -/
def partitionLoop {NR : Type} : List HostRule → DNSResult NR → DNSResult NR
  | [], res => res
  | hostRule :: rest, res =>
    if isIPv4 hostRule.IP then
      partitionLoop rest { res with HostRulesV4 := res.HostRulesV4 ++ [hostRule] }
    else
      partitionLoop rest { res with HostRulesV6 := res.HostRulesV6 ++ [hostRule] }

/-- The method `DNSEngine.MatchRequest`; `first` is the order of the map
passes inside `IPEngine.Match`. -/
def DNSEngine.MatchRequest {NE NR : Type} (x : Deps NE NR) (d : DNSEngine NE NR) (first : Nat)
    (dReq : DNSRequest) : DNSResult NR × Bool :=
  if dReq.Hostname = [] then (DNSResult.empty, false)
  else
    let r : Request :=
      { Hostname := dReq.Hostname, SortedClientTags := dReq.SortedClientTags,
        ClientIP := dReq.ClientIP, ClientName := dReq.ClientName }
    match x.networkMatch d.networkEngine r with
    | (networkRule, true) => ({ NetworkRule := networkRule, HostRulesV4 := [], HostRulesV6 := [], IPRule := none }, true)
    | (_, false) =>
      match (if dReq.Answer then some (d.IPEngine.Match first dReq.Hostname) else none) with
      | some (ie, true) =>
        ({ NetworkRule := none, HostRulesV4 := [], HostRulesV6 := [], IPRule := some ie }, true)
      | _ =>
        match d.matchLookupTable x dReq.Hostname with
        | (_, false) => (DNSResult.empty, false)
        | (rr, true) => (partitionLoop rr DNSResult.empty, true)

/-- The loop of `addRule` over the hostnames of the rule. -/
def addRuleLoop {NE NR : Type} (x : Deps NE NR) (storageIdx : Int) :
    List GoString → (Nat → Option (List Int)) → (Nat → Option (List Int))
  | [], lookupTable => lookupTable
  | hostname :: rest, lookupTable =>
    let hash := x.fastHash hostname
    let rulesIndexes := (lookupTable hash).getD []
    addRuleLoop x storageIdx rest
      (fun k => if k = hash then some (rulesIndexes ++ [storageIdx]) else lookupTable k)

/-- The method `DNSEngine.addRule`. -/
def DNSEngine.addRule {NE NR : Type} (x : Deps NE NR) (d : DNSEngine NE NR)
    (hostRule : HostRule) (storageIdx : Int) : DNSEngine NE NR :=
  { d with
    lookupTable := addRuleLoop x storageIdx hostRule.Hostnames d.lookupTable
    RulesCount := d.RulesCount + 1 }

/-- The second loop of `NewDNSEngine` (lines 77-89); the two engines under
construction are carried in `d`. -/
def buildLoop {NE NR : Type} (x : Deps NE NR) :
    List (Rule NR × Int) → DNSEngine NE NR → Outcome (DNSEngine NE NR)
  | [], d => .ret d
  | (f, idx) :: rest, d =>
    match f with
    | .ip ipRule =>
      match d.IPEngine.AddRule ipRule with
      | .ret ipEngine => buildLoop x rest { d with IPEngine := ipEngine }
      | .panicked => .panicked
      | .fatal => .fatal
      | .running => .running
    | .host hostRule => buildLoop x rest (d.addRule x hostRule idx)
    | .network networkRule =>
      if x.IsHostLevelNetworkRule networkRule then
        buildLoop x rest { d with networkEngine := x.networkAddRule d.networkEngine networkRule idx }
      else buildLoop x rest d
    | .other => buildLoop x rest d

/-- The function `NewDNSEngine`. The first loop (lines 49-58) only counts the
rules for the capacities of the maps and has no part in the result. -/
def NewDNSEngine {NE NR : Type} (x : Deps NE NR) (s : RuleStorage NR) :
    Outcome (DNSEngine NE NR) :=
  let d : DNSEngine NE NR :=
    { RulesCount := 0, networkEngine := x.newNetworkEngine s, lookupTable := fun _ => none,
      rulesStorage := s, IPEngine := IPEngine.zero, IPRules := none }
  match buildLoop x s.rules d with
  | .ret d =>
    .ret { d with
      RulesCount := d.RulesCount + (x.networkRulesCount d.networkEngine + d.IPEngine.RulesCount) }
  | .panicked => .panicked
  | .fatal => .fatal
  | .running => .running

/-- The host rules of the answer as the description of `MatchRequest` states
them: the rules that the storage retrieves for the indices of the bucket of
the hostname and whose `Match(hostname)` is true, in the order of the bucket. -/
def confirmedRules {NE NR : Type} (x : Deps NE NR) (d : DNSEngine NE NR)
    (hostname : GoString) : List HostRule :=
  ((d.lookupTable (x.fastHash hostname)).getD []).filterMap fun idx =>
    (d.rulesStorage.RetrieveHostRule idx).filter fun rule => x.hostRuleMatch rule hostname

/-- The answer of the host rule index as the description of `MatchRequest`
states it: the confirmed rules with an IPv4 form in `HostRulesV4`, all others
in `HostRulesV6`, matched exactly when there is a confirmed rule. -/
def hostAnswer {NE NR : Type} (x : Deps NE NR) (d : DNSEngine NE NR)
    (hostname : GoString) : DNSResult NR × Bool :=
  ({ NetworkRule := none,
     HostRulesV4 := (confirmedRules x d hostname).filter fun rule => isIPv4 rule.IP,
     HostRulesV6 := (confirmedRules x d hostname).filter fun rule => !isIPv4 rule.IP,
     IPRule := none },
   !(confirmedRules x d hostname).isEmpty)

/-! ## Values of the examples -/

/-- The network 10.0.0.0/8. -/
def net10 : IPNet :=
  { IP := ipv4 10 0 0 0, Mask := CIDRMask 8 32, bits := 32 }

/-- An IP rule of filter list 7 with the single block 10.0.0.0/8. -/
def rule7 : IPRule :=
  { RuleText := str "10.0.0.0/8", FilterListID := 7, IPNet := [net10] }

/-- An `IPEngine` whose map `IPRangers` is initialised and empty. -/
def engineWithMap : IPEngine :=
  { RulesCount := 0, ruleStorage := none, IPRangers := some [] }

/-- The engine `engineWithMap` after `AddRule(rule7)`. -/
def engineAfterRule7 : IPEngine :=
  { RulesCount := 1, ruleStorage := none,
    IPRangers := some [(7, { listID := 0, hash := [], ranger := some [net10] })] }

/-- Host rule `0.0.0.0 example.org`. -/
def hostOrg : HostRule :=
  { RuleText := str "0.0.0.0 example.org", FilterListID := 1,
    Hostnames := [str "example.org"], IP := some (.v4 0) }

/-- Host rule `0.0.0.0 example.com`. -/
def hostCom : HostRule :=
  { RuleText := str "0.0.0.0 example.com", FilterListID := 1,
    Hostnames := [str "example.com"], IP := some (.v4 0) }

/-- Host rule `:: example.org`. -/
def hostOrg6 : HostRule :=
  { RuleText := str ":: example.org", FilterListID := 1,
    Hostnames := [str "example.org"], IP := some (.v6 0) }

/-- Host rule `0.0.0.0 ads.example.org tracker.example.org`. -/
def hostAds : HostRule :=
  { RuleText := str "0.0.0.0 ads.example.org tracker.example.org", FilterListID := 1,
    Hostnames := [str "ads.example.org", str "tracker.example.org"], IP := some (.v4 0) }

/-- An instance of the parameters for the examples: the hash of a hostname is
its length (so "example.org" and "example.com" collide), a host rule matches
the hostnames it lists, a network engine is the list of the hostnames it
blocks and a network rule is such a hostname. -/
def exampleDeps : Deps (List GoString) GoString :=
  { fastHash := fun hostname => hostname.length
    hostRuleMatch := fun rule hostname => rule.Hostnames.contains hostname
    IsHostLevelNetworkRule := fun _ => true
    newNetworkEngine := fun _ => []
    networkAddRule := fun e r _ => e ++ [r]
    networkMatch := fun e r => if e.contains r.Hostname then (some r.Hostname, true) else (none, false)
    networkRulesCount := fun e => e.length }

/-- A storage with four host rules and one network rule. -/
def exampleStorage : RuleStorage GoString :=
  { rules := [(.host hostOrg, 0), (.host hostCom, 1), (.network (str "ads.example.org"), 2),
      (.host hostOrg6, 3), (.host hostAds, 4)]
    RetrieveHostRule := fun idx =>
      if idx = 0 then some hostOrg else if idx = 1 then some hostCom
      else if idx = 3 then some hostOrg6 else if idx = 4 then some hostAds else none }

/-- An engine over `exampleStorage`; the bucket of hash 11 also holds the
index 8, for which the storage retrieves no host rule. -/
def exampleEngine : DNSEngine (List GoString) GoString :=
  { RulesCount := 5, networkEngine := [str "ads.example.org"],
    lookupTable := fun k =>
      if k = 11 then some [0, 1, 3, 8] else if k = 15 then some [4]
      else if k = 19 then some [4] else none
    rulesStorage := exampleStorage, IPEngine := engineWithMap, IPRules := none }

/-- A request for "ads.example.org" that comes from a DNS response. -/
def requestAds : DNSRequest :=
  { Hostname := str "ads.example.org", Answer := true, SortedClientTags := [],
    ClientIP := str "0.0.0.0", ClientName := [] }

/-- A request for "example.org" that does not come from a DNS response. -/
def requestOrg : DNSRequest :=
  { Hostname := str "example.org", Answer := false, SortedClientTags := [],
    ClientIP := str "0.0.0.0", ClientName := [] }

/-! ## Theorems: IPv4RangeToCIDR -/

theorem rangeLoop_fuel_add (endAddr : Nat) (l : List IPNet) :
    ∀ (fuel : Nat) (s : LoopState), rangeLoop endAddr fuel s = .ret l →
      ∀ k, rangeLoop endAddr (fuel + k) s = .ret l := by
  intro fuel
  induction fuel with
  | zero =>
    intro s h k
    cases k with
    | zero => exact h
    | succ k =>
      rw [Nat.zero_add]
      by_cases hc : s.i < s.startAddr
      · simp only [rangeLoop, hc, if_true] at h ⊢
        exact h
      · simp [rangeLoop, hc] at h
  | succ f ih =>
    intro s h k
    rw [Nat.add_right_comm]
    by_cases hc : s.i < s.startAddr
    · simp only [rangeLoop, hc, if_true] at h ⊢
      exact h
    · simp only [rangeLoop, hc, if_false] at h ⊢
      cases hb : loopBody endAddr s with
      | none => simp [hb] at h
      | some s' =>
        simp only [hb] at h ⊢
        exact ih s' h k

theorem loopBody_mk (endAddr i st st' : Nat) (l : List IPNet) (n : IPNet)
    (h : nextBlock endAddr st = some (n, st')) :
    loopBody endAddr ⟨i, st, l⟩ = some ⟨dec32 i, st', l ++ [n]⟩ := by
  unfold loopBody
  rw [h]

theorem nextBlock_top_zero : nextBlock 0xFFFFFFFF 0 = some (⟨0, 0, 32⟩, 0) := by
  decide!

theorem rangeLoop_top_zero_running :
    ∀ (fuel i : Nat) (l : List IPNet), rangeLoop 0xFFFFFFFF fuel ⟨i, 0, l⟩ = .running := by
  intro fuel
  induction fuel with
  | zero => intro i l; simp [rangeLoop]
  | succ f ih =>
    intro i l
    rw [rangeLoop]
    simp only [Nat.not_lt_zero, if_false]
    rw [loopBody_mk 0xFFFFFFFF i 0 0 l _ nextBlock_top_zero]
    exact ih _ _

theorem passes_succ_mk (endAddr i st st' k : Nat) (l : List IPNet) (n : IPNet)
    (hc : st ≤ i) (h : nextBlock endAddr st = some (n, st')) :
    passes endAddr (k + 1) ⟨i, st, l⟩ = passes endAddr k ⟨dec32 i, st', l ++ [n]⟩ := by
  rw [passes]
  simp only [Nat.not_lt.mpr hc, if_false]
  rw [loopBody_mk endAddr i st st' l n h]
  rfl

theorem rangeLoop_succ_mk (endAddr i st st' k : Nat) (l : List IPNet) (n : IPNet)
    (hc : st ≤ i) (h : nextBlock endAddr st = some (n, st')) :
    rangeLoop endAddr (k + 1) ⟨i, st, l⟩ = rangeLoop endAddr k ⟨dec32 i, st', l ++ [n]⟩ := by
  rw [rangeLoop]
  simp only [Nat.not_lt.mpr hc, if_false]
  rw [loopBody_mk endAddr i st st' l n h]

theorem IPv4RangeToCIDR_of_rangeLoop_running (fuel startAddr endAddr : Nat) (h : startAddr ≤ endAddr)
    (hr : rangeLoop endAddr fuel ⟨endAddr, startAddr, []⟩ = .running) :
    IPv4RangeToCIDR fuel (.v4 startAddr) (.v4 endAddr) = .running := by
  unfold IPv4RangeToCIDR
  simp only [IPv4ToLong, Nat.not_lt.mpr h, if_false, gt_iff_lt]
  rw [hr]

theorem IPv4RangeToCIDR_of_rangeLoop_ret (fuel startAddr endAddr : Nat) (l : List IPNet)
    (h : startAddr ≤ endAddr)
    (hr : rangeLoop endAddr fuel ⟨endAddr, startAddr, []⟩ = .ret l) :
    IPv4RangeToCIDR fuel (.v4 startAddr) (.v4 endAddr) = .ret (l, none) := by
  unfold IPv4RangeToCIDR
  simp only [IPv4ToLong, Nat.not_lt.mpr h, if_false, gt_iff_lt]
  rw [hr]


theorem rangeLoop_add_fuel (endAddr fuel : Nat) (s : LoopState) (l : List IPNet)
    (h : rangeLoop endAddr fuel s = .ret l) (k : Nat) :
    rangeLoop endAddr (k + fuel) s = .ret l := by
  rw [Nat.add_comm]
  exact rangeLoop_fuel_add endAddr l fuel s h k

/-- C1 (fails on the code): the range 0.0.0.1-0.0.0.2 yields the single block
0.0.0.1/32, which leaves out 0.0.0.2, and the range 10.0.1.100-10.0.1.120
yields 10.0.1.100/30, 10.0.1.104/29 and 10.0.1.112/29, none of which contains
10.0.1.120. -/
theorem IPv4RangeToCIDR_omits_addresses :
    (∀ fuel, IPv4RangeToCIDR (fuel + 1) (.v4 (ipv4 0 0 0 1)) (.v4 (ipv4 0 0 0 2)) =
        .ret ([⟨ipv4 0 0 0 1, 0xFFFFFFFF, 32⟩], none)) ∧
      IPNet.Contains4 ⟨ipv4 0 0 0 1, 0xFFFFFFFF, 32⟩ (ipv4 0 0 0 2) = false ∧
      (∀ fuel, IPv4RangeToCIDR (fuel + 3) (.v4 (ipv4 10 0 1 100)) (.v4 (ipv4 10 0 1 120)) =
        .ret ([⟨ipv4 10 0 1 100, 0xFFFFFFFC, 32⟩, ⟨ipv4 10 0 1 104, 0xFFFFFFF8, 32⟩,
          ⟨ipv4 10 0 1 112, 0xFFFFFFF8, 32⟩], none)) ∧
      (∀ n ∈ [(⟨ipv4 10 0 1 100, 0xFFFFFFFC, 32⟩ : IPNet), ⟨ipv4 10 0 1 104, 0xFFFFFFF8, 32⟩,
          ⟨ipv4 10 0 1 112, 0xFFFFFFF8, 32⟩], n.Contains4 (ipv4 10 0 1 120) = false) := by
  refine ⟨fun fuel => ?_, by decide!, fun fuel => ?_, by decide!⟩
  · apply IPv4RangeToCIDR_of_rangeLoop_ret _ _ _ _ (by decide!)
    exact rangeLoop_add_fuel _ 1 _ _ (by decide!) fuel
  · apply IPv4RangeToCIDR_of_rangeLoop_ret _ _ _ _ (by decide!)
    exact rangeLoop_add_fuel _ 3 _ _ (by decide!) fuel

theorem passes_top_zero : ∀ (k i : Nat) (l : List IPNet),
    ∃ j, passes 0xFFFFFFFF k ⟨i, 0, l⟩ = some ⟨j, 0, l ++ List.replicate k ⟨0, 0, 32⟩⟩ := by
  intro k
  induction k with
  | zero => intro i l; exact ⟨i, by simp [passes]⟩
  | succ k ih =>
    intro i l
    obtain ⟨j, hj⟩ := ih (dec32 i) (l ++ [⟨0, 0, 32⟩])
    refine ⟨j, ?_⟩
    rw [passes_succ_mk _ _ _ _ _ _ _ (Nat.zero_le _) nextBlock_top_zero, hj]
    simp [List.replicate_succ]

/-- C4 (fails on the code): the range 255.255.255.0-255.255.255.255 has
`start <= end`, yet the function returns neither blocks nor an error: after
the block 255.255.255.0/24 `startAddr` wraps to 0 and the loop never ends. A
range with `start > end`, such as 0.0.0.2-0.0.0.1, gets the empty list and
the error. -/
theorem IPv4RangeToCIDR_no_return_at_top :
    (∀ fuel, IPv4RangeToCIDR fuel (.v4 (ipv4 255 255 255 0)) (.v4 (ipv4 255 255 255 255)) =
        .running)
      ∧ ∀ fuel, IPv4RangeToCIDR fuel (.v4 (ipv4 0 0 0 2)) (.v4 (ipv4 0 0 0 1)) =
        .ret ([], some "start of IP range must be less than the end") := by
  have hb : nextBlock 0xFFFFFFFF 0xFFFFFF00 = some (⟨0xFFFFFF00, 0xFFFFFF00, 32⟩, 0) := by decide!
  have h1 : ipv4 255 255 255 0 = 0xFFFFFF00 := by decide!
  have h2 : ipv4 255 255 255 255 = 0xFFFFFFFF := by decide!
  refine ⟨fun fuel => ?_, fun fuel => ?_⟩
  · rw [h1, h2]
    apply IPv4RangeToCIDR_of_rangeLoop_running _ _ _ (by decide!)
    cases fuel with
    | zero => simp [rangeLoop]
    | succ f =>
      rw [rangeLoop_succ_mk _ _ _ _ _ _ _ (by decide!) hb]
      exact rangeLoop_top_zero_running _ _ _
  · rfl


/-! ### Ranges that stay clear of 0.0.0.0-0.0.0.0 and of 255.255.255.255 -/

theorem and_mask (x k : Nat) (hx : x < 2 ^ 32) (hk : k ≤ 32) :
    x &&& (2 ^ 32 - 2 ^ k) = x / 2 ^ k * 2 ^ k := by
  apply Nat.eq_of_testBit_eq
  intro i
  have h1 : (2 ^ 32 - 2 ^ k).testBit i = (decide (i < 32) && !decide (i < k)) := by
    have hpos : 0 < 2 ^ k := Nat.two_pow_pos k
    have hlt : 2 ^ k - 1 < 2 ^ 32 := by
      have : 2 ^ k ≤ 2 ^ 32 := Nat.pow_le_pow_right (by norm_num) hk
      omega
    have := Nat.testBit_two_pow_sub_succ hlt i
    have hk1 : 2 ^ k - 1 + 1 = 2 ^ k := Nat.sub_add_cancel hpos
    rw [hk1] at this
    rw [this, Nat.testBit_two_pow_sub_one]
  rw [Nat.testBit_and, h1, Nat.mul_comm, Nat.testBit_mul_pow_two, ← Nat.shiftRight_eq_div_pow,
    Nat.testBit_shiftRight]
  by_cases hik : i < k
  · have : ¬ (i ≥ k) := by omega
    simp [hik, this]
  · have hki : k ≤ i := Nat.le_of_not_lt hik
    simp only [hik, decide_False, Bool.not_false, Bool.and_true, ge_iff_le, hki, decide_True,
      Bool.true_and]
    rw [Nat.add_sub_cancel' hki]
    by_cases hi : i < 32
    · simp [hi]
    · simp only [hi, decide_False, Bool.and_false]
      exact (Nat.testBit_lt_two_pow (lt_of_lt_of_le hx
        (Nat.pow_le_pow_right (by norm_num) (Nat.le_of_not_lt hi)))).symm

theorem cidrToMask_getD : ∀ m, m ≤ 32 → cidrToMask.getD m 0 = CIDRMask m 32 := by
  decide

theorem and_CIDRMask (x m : Nat) (hx : x < 2 ^ 32) :
    x &&& CIDRMask m 32 = x / 2 ^ (32 - m) * 2 ^ (32 - m) := by
  unfold CIDRMask
  exact and_mask x (32 - m) hx (Nat.sub_le _ _)

theorem alignLoop_spec (s : Nat) (hs : s < 2 ^ 32) : ∀ (j m : Nat), j ≤ m → m ≤ 32 →
    2 ^ (32 - m) ∣ s → alignLoop s j m ≤ 32 ∧ 2 ^ (32 - alignLoop s j m) ∣ s := by
  intro j
  induction j with
  | zero => intro m _ hm hd; exact ⟨hm, hd⟩
  | succ j ih =>
    intro m hj hm hd
    rw [alignLoop]
    split_ifs with hne
    · exact ⟨hm, hd⟩
    · have heq : s &&& cidrToMask.getD (m - 1) 0 = s := by simpa using hne
      rw [cidrToMask_getD (m - 1) (by omega), and_CIDRMask s (m - 1) hs] at heq
      apply ih (m - 1) (by omega) (by omega)
      exact Dvd.intro_left _ heq


theorem ilog2_eq_log : ∀ (fuel n : Nat), n < 2 ^ fuel → ilog2 fuel n = Nat.log 2 n := by
  intro fuel
  induction fuel with
  | zero => intro n h; simp at h; subst h; simp [ilog2]
  | succ f ih =>
    intro n h
    rw [ilog2]
    by_cases h2 : n < 2
    · simp [h2, Nat.log_of_lt h2]
    · have hdiv : n / 2 < 2 ^ f := by
        rw [Nat.div_lt_iff_lt_mul (by norm_num)]
        rw [pow_succ] at h
        exact h
      have hn : Nat.log 2 n = Nat.log 2 (n / 2) + 1 :=
        Nat.log_of_one_lt_of_le (by norm_num) (by omega)
      rw [if_neg h2, ih (n / 2) hdiv, hn]

theorem ilog2_spec (n : Nat) (h0 : 0 < n) (h : n < 2 ^ 32) :
    ilog2 32 n ≤ 31 ∧ 2 ^ ilog2 32 n ≤ n := by
  rw [ilog2_eq_log 32 n h]
  refine ⟨?_, Nat.pow_log_le_self 2 (by omega)⟩
  have := Nat.log_lt_of_lt_pow (by omega) h
  omega

theorem wrapInt64_of_small (x : Int) (h1 : -64 ≤ x) (h2 : x ≤ 64) : wrapInt64 x = x := by
  unfold wrapInt64
  omega

theorem remaining_eq (e s : Nat) (hs : s ≤ e) (he : e + 1 < 2 ^ 32) :
    add32 (sub32 e s) 1 = e - s + 1 := by
  unfold add32 sub32
  omega

theorem add32_of_lt (a b : Nat) (h : a + b < 2 ^ 32) : add32 a b = a + b := by
  unfold add32
  omega

theorem pow2u32_of_lt (k : Nat) (h : k < 32) : pow2u32 k = 2 ^ k := by
  unfold pow2u32
  exact Nat.mod_eq_of_lt (Nat.pow_lt_pow_right (by norm_num) h)

theorem dec32_of_pos (i : Nat) (h0 : 0 < i) (h : i < 2 ^ 32) : dec32 i = i - 1 := by
  unfold dec32
  omega

theorem parseCIDR4_of_le (a m : Nat) (hm : m ≤ 32) :
    parseCIDR4 a (m : Int) = some ⟨a &&& CIDRMask m 32, CIDRMask m 32, 32⟩ := by
  unfold parseCIDR4
  rw [if_pos ⟨by omega, by omega⟩]
  simp

theorem nextBlock_spec (e s : Nat) (hs : s ≤ e) (he : e + 1 < 2 ^ 32) :
    ∃ k, k ≤ 31 ∧ 2 ^ k ∣ s ∧ s + 2 ^ k ≤ e + 1 ∧
      nextBlock e s = some (blockAt s k, s + 2 ^ k) := by
  have hs32 : s < 2 ^ 32 := by omega
  obtain ⟨hm0, hd0⟩ := alignLoop_spec s hs32 32 32 (Nat.le_refl _) (Nat.le_refl _) (by simp)
  have hrem := remaining_eq e s hs he
  obtain ⟨hL, hpowL⟩ := ilog2_spec (e - s + 1) (by omega) (by omega)
  generalize hm0' : alignLoop s 32 32 = m0 at hm0 hd0
  generalize hL' : ilog2 32 (e - s + 1) = L at hL hpowL
  have hfl : floorLog2 (e - s + 1) = (L : Int) := by
    unfold floorLog2
    rw [if_neg (by omega), hL']
  have hmax : (if (m0 : Int) < 32 - (L : Int) then 32 - (L : Int) else (m0 : Int)) =
      ((max m0 (32 - L) : Nat) : Int) := by
    split_ifs with h <;> omega
  have hM : max m0 (32 - L) ≤ 32 := by omega
  have hk31 : 32 - max m0 (32 - L) ≤ 31 := by omega
  have hdvd : 2 ^ (32 - max m0 (32 - L)) ∣ s :=
    Dvd.dvd.trans (Nat.pow_dvd_pow 2 (by omega)) hd0
  have hle : 2 ^ (32 - max m0 (32 - L)) ≤ 2 ^ L := Nat.pow_le_pow_right (by norm_num) (by omega)
  have hand : s &&& CIDRMask (max m0 (32 - L)) 32 = s := by
    rw [and_CIDRMask s _ hs32]
    exact Nat.div_mul_cancel hdvd
  have htoNat : (32 - ((max m0 (32 - L) : Nat) : Int)).toNat = 32 - max m0 (32 - L) := by omega
  refine ⟨32 - max m0 (32 - L), hk31, hdvd, by omega, ?_⟩
  unfold nextBlock
  simp only [hm0', hrem, hfl, wrapInt64_of_small (32 - (L : Int)) (by omega) (by omega), hmax,
    parseCIDR4_of_le _ _ hM, hand, htoNat, pow2u32_of_lt _ (Nat.lt_succ_of_le hk31)]
  rw [add32_of_lt _ _ (by omega)]
  unfold blockAt
  rw [Nat.sub_sub_self hM]


theorem contains_blockAt (lo k a : Nat) (hk : k ≤ 32) (hd : 2 ^ k ∣ lo) (hlo : lo < 2 ^ 32)
    (ha : a < 2 ^ 32) :
    (blockAt lo k).Contains4 a = true ↔ lo ≤ a ∧ a < lo + 2 ^ k := by
  have hkk : 32 - (32 - k) = k := Nat.sub_sub_self hk
  have hpos : 0 < 2 ^ k := Nat.two_pow_pos k
  unfold IPNet.Contains4 blockAt
  simp only [beq_self_eq_true, Bool.true_and, beq_iff_eq]
  rw [and_CIDRMask lo _ hlo, and_CIDRMask a _ ha, hkk, Nat.div_mul_cancel hd]
  obtain ⟨q, rfl⟩ := hd
  constructor
  · intro h
    have h1 : a / 2 ^ k * 2 ^ k ≤ a := Nat.div_mul_le_self a (2 ^ k)
    have h2 : a < (a / 2 ^ k + 1) * 2 ^ k := by
      rw [Nat.mul_comm]; exact Nat.lt_mul_div_succ a hpos
    rw [Nat.add_mul, Nat.one_mul, ← h] at h2
    rw [← h] at h1
    exact ⟨h1, h2⟩
  · rintro ⟨h1, h2⟩
    have hq : a / 2 ^ k = q := by
      apply Nat.div_eq_of_lt_le
      · rw [Nat.mul_comm]; exact h1
      · rw [Nat.add_mul, Nat.one_mul, Nat.mul_comm]; exact h2
    rw [hq, Nat.mul_comm]


theorem Chain_le : ∀ (l : List IPNet) (lo hi : Nat), Chain lo hi l → lo ≤ hi := by
  intro l
  induction l with
  | nil => intro lo hi h; exact Nat.le_of_eq h
  | cons b l ih =>
    intro lo hi h
    obtain ⟨k, _, _, _, hle, _⟩ := h
    exact Nat.le_trans (Nat.le_add_right _ _) hle

theorem Chain_snoc : ∀ (l : List IPNet) (lo mid k : Nat), Chain lo mid l → k ≤ 32 →
    2 ^ k ∣ mid → Chain lo (mid + 2 ^ k) (l ++ [blockAt mid k]) := by
  intro l
  induction l with
  | nil =>
    intro lo mid k h hk hd
    have : lo = mid := h
    subst this
    exact ⟨k, hk, rfl, hd, Nat.le_refl _, rfl⟩
  | cons b l ih =>
    intro lo mid k h hk hd
    obtain ⟨k', hk', hb, hd', hle, hrest⟩ := h
    exact ⟨k', hk', hb, hd', Nat.le_trans hle (Nat.le_add_right _ _), ih _ _ _ hrest hk hd⟩

theorem Chain_mem : ∀ (l : List IPNet) (lo hi : Nat), Chain lo hi l → ∀ b ∈ l,
    ∃ x k, k ≤ 32 ∧ b = blockAt x k ∧ 2 ^ k ∣ x ∧ lo ≤ x ∧ x + 2 ^ k ≤ hi := by
  intro l
  induction l with
  | nil => intro lo hi _ b hb; cases hb
  | cons b0 l ih =>
    intro lo hi h b hb
    obtain ⟨k, hk, hb0, hd, hle, hrest⟩ := h
    rcases List.mem_cons.mp hb with rfl | hmem
    · exact ⟨lo, k, hk, hb0, hd, Nat.le_refl _, hle⟩
    · obtain ⟨x, k', hk', hbx, hdx, hlox, hhix⟩ := ih _ _ hrest b hmem
      exact ⟨x, k', hk', hbx, hdx, Nat.le_trans (Nat.le_add_right _ _) hlox, hhix⟩

theorem Chain_within (l : List IPNet) (lo hi : Nat) (h : Chain lo hi l) (hhi : hi ≤ 2 ^ 32)
    (b : IPNet) (hb : b ∈ l) (a : Nat) (ha : a < 2 ^ 32) (hc : b.Contains4 a = true) :
    lo ≤ a ∧ a < hi := by
  obtain ⟨x, k, hk, rfl, hd, hlo, hx⟩ := Chain_mem l lo hi h b hb
  have hpos : 0 < 2 ^ k := Nat.two_pow_pos k
  obtain ⟨h1, h2⟩ := (contains_blockAt x k a hk hd (by omega) ha).mp hc
  omega

theorem Chain_pairwise : ∀ (l : List IPNet) (lo hi : Nat), Chain lo hi l → hi ≤ 2 ^ 32 →
    l.Pairwise Disjoint4 := by
  intro l
  induction l with
  | nil => intro lo hi _ _; exact List.Pairwise.nil
  | cons b l ih =>
    intro lo hi h hhi
    obtain ⟨k, hk, hb, hd, hle, hrest⟩ := h
    refine List.Pairwise.cons ?_ (ih _ _ hrest hhi)
    intro b' hb' a ha ⟨hc, hc'⟩
    have hpos : 0 < 2 ^ k := Nat.two_pow_pos k
    subst hb
    obtain ⟨_, h2⟩ := (contains_blockAt lo k a hk hd (by omega) ha).mp hc
    obtain ⟨h3, _⟩ := Chain_within l _ hi hrest hhi b' hb' a ha hc'
    omega

theorem Chain_cover : ∀ (l : List IPNet) (lo hi : Nat), Chain lo hi l → hi ≤ 2 ^ 32 →
    ∀ a, lo ≤ a → a < hi → ∃ b ∈ l, b.Contains4 a = true := by
  intro l
  induction l with
  | nil =>
    intro lo hi h _ a h1 h2
    have : lo = hi := h
    omega
  | cons b l ih =>
    intro lo hi h hhi a h1 h2
    obtain ⟨k, hk, hb, hd, hle, hrest⟩ := h
    have hpos : 0 < 2 ^ k := Nat.two_pow_pos k
    by_cases ha : a < lo + 2 ^ k
    · refine ⟨b, List.mem_cons_self _ _, ?_⟩
      rw [hb]
      exact (contains_blockAt lo k a hk hd (by omega) (by omega)).mpr ⟨h1, ha⟩
    · obtain ⟨b', hb', hc⟩ := ih _ _ hrest hhi a (by omega) h2
      exact ⟨b', List.mem_cons_of_mem _ hb', hc⟩

theorem rangeLoop_chain (e s0 : Nat) (he : e + 1 < 2 ^ 32) : ∀ (fuel i st : Nat) (l : List IPNet),
    i ≤ e → (st ≤ i → 1 ≤ i) → i + 1 ≤ st + fuel → Chain s0 st l → st ≤ e + 1 →
    ∃ l' hi, rangeLoop e fuel ⟨i, st, l⟩ = .ret l' ∧ Chain s0 hi l' ∧ st ≤ hi ∧ hi ≤ e + 1 ∧
      (st ≤ i → st < hi) := by
  intro fuel
  induction fuel with
  | zero =>
    intro i st l _ _ hf hch hst
    refine ⟨l, st, ?_, hch, Nat.le_refl _, hst, fun h => by omega⟩
    rw [rangeLoop]
    exact if_pos (show i < st by omega)
  | succ f ih =>
    intro i st l hi hpos hf hch hst
    by_cases hc : i < st
    · refine ⟨l, st, ?_, hch, Nat.le_refl _, hst, fun h => by omega⟩
      rw [rangeLoop]
      exact if_pos hc
    · have hsi : st ≤ i := Nat.le_of_not_lt hc
      obtain ⟨k, hk, hd, hle, hnb⟩ := nextBlock_spec e st (Nat.le_trans hsi hi) he
      have hkpos : 0 < 2 ^ k := Nat.two_pow_pos k
      rw [rangeLoop_succ_mk e i st _ f l _ hsi hnb, dec32_of_pos i (hpos hsi) (by omega)]
      obtain ⟨l', hi', hr, hch', h1, h2, _⟩ := ih (i - 1) (st + 2 ^ k) (l ++ [blockAt st k])
        (by omega) (by omega) (by omega) (Chain_snoc l s0 st k hch (by omega) hd) hle
      exact ⟨l', hi', hr, hch', by omega, h2, fun _ => by omega⟩

/-- For a range within 0.0.0.1-255.255.255.254 the function returns, with no
error, aligned blocks that follow one another from `start` without gap or
overlap and end at or before `end`. -/
theorem IPv4RangeToCIDR_inner_range (s e : Nat) (hse : s ≤ e) (h1 : 1 ≤ e)
    (he : e + 1 < 2 ^ 32) :
    ∃ l hi, (∀ fuel, e - s < fuel → IPv4RangeToCIDR fuel (.v4 s) (.v4 e) = .ret (l, none)) ∧
      Chain s hi l ∧ s < hi ∧ hi ≤ e + 1 := by
  obtain ⟨l, hi, hr, hch, _, hhi, hlt⟩ := rangeLoop_chain e s he (e - s + 1) e s []
    (Nat.le_refl _) (fun _ => h1) (by omega) rfl (by omega)
  refine ⟨l, hi, ?_, hch, hlt hse, hhi⟩
  intro fuel hf
  apply IPv4RangeToCIDR_of_rangeLoop_ret _ _ _ _ hse
  have := rangeLoop_add_fuel e (e - s + 1) ⟨e, s, []⟩ l hr (fuel - (e - s + 1))
  rw [Nat.sub_add_cancel (by omega)] at this
  exact this

/-- For a range within 0.0.0.1-255.255.255.254 the function returns, with no
error, blocks that are pairwise disjoint and lie inside the range. -/
theorem IPv4RangeToCIDR_inner_range_blocks (s e : Nat) (hse : s ≤ e) (h1 : 1 ≤ e)
    (he : e + 1 < 2 ^ 32) :
    ∃ l, (∀ fuel, e - s < fuel → IPv4RangeToCIDR fuel (.v4 s) (.v4 e) = .ret (l, none)) ∧
      l ≠ [] ∧ l.Pairwise Disjoint4 ∧
      ∀ b ∈ l, ∀ a, a < 2 ^ 32 → b.Contains4 a = true → s ≤ a ∧ a ≤ e := by
  obtain ⟨l, hi, hret, hch, hlt, hhi⟩ := IPv4RangeToCIDR_inner_range s e hse h1 he
  refine ⟨l, hret, ?_, Chain_pairwise l s hi hch (by omega), ?_⟩
  · intro hnil
    subst hnil
    have : s = hi := hch
    omega
  · intro b hb a ha hc
    obtain ⟨h2, h3⟩ := Chain_within l s hi hch (by omega) b hb a ha hc
    omega

/-- Whenever the function returns, it returns an error exactly for
`start > end`, and then with the empty list. -/
theorem IPv4RangeToCIDR_error_iff (fuel s e : Nat) (l : List IPNet) (err : Option String)
    (h : IPv4RangeToCIDR fuel (.v4 s) (.v4 e) = .ret (l, err)) :
    (err ≠ none ↔ e < s) ∧ (e < s → l = []) := by
  unfold IPv4RangeToCIDR at h
  simp only [IPv4ToLong, gt_iff_lt] at h
  by_cases hlt : e < s
  · rw [if_pos hlt] at h
    simp only [Outcome.ret.injEq, Prod.mk.injEq] at h
    obtain ⟨rfl, rfl⟩ := h
    simp [hlt]
  · rw [if_neg hlt] at h
    cases hr : rangeLoop e fuel ⟨e, s, []⟩ with
    | ret l' =>
      rw [hr] at h
      simp only [Outcome.ret.injEq, Prod.mk.injEq] at h
      obtain ⟨_, rfl⟩ := h
      simp [hlt]
    | panicked => rw [hr] at h; cases h
    | fatal => rw [hr] at h; cases h
    | running => rw [hr] at h; cases h

/-- A range with `start > end` gets the empty list and the error, whatever
the iteration budget. -/
theorem IPv4RangeToCIDR_invalid_range (fuel s e : Nat) (h : e < s) :
    IPv4RangeToCIDR fuel (.v4 s) (.v4 e) =
      .ret ([], some "start of IP range must be less than the end") := by
  unfold IPv4RangeToCIDR
  simp only [IPv4ToLong, gt_iff_lt]
  rw [if_pos h]

/-! ### The range 0.0.0.0-0.0.0.0 -/

theorem nextBlock_zero_pow : ∀ j, j ≤ 31 →
    nextBlock 0 (2 ^ j) = some (blockAt (2 ^ j) j, 2 ^ (j + 1) % 2 ^ 32) := by
  decide!

theorem nextBlock_zero_zero : nextBlock 0 0 = some (blockAt 0 0, 1) := by
  decide!

theorem dec32_zero : dec32 0 = 0xFFFFFFFF := by
  decide!

theorem two_pow_mod_of_le (j : Nat) (hj : j ≤ 31) : 2 ^ j % 2 ^ 32 = 2 ^ j :=
  Nat.mod_eq_of_lt (Nat.pow_lt_pow_right (by norm_num) (by omega))

theorem two_pow_le_of_le (j : Nat) (hj : j ≤ 31) : 2 ^ j ≤ 2 ^ 31 :=
  Nat.pow_le_pow_right (by norm_num) hj

theorem rangeLoop_climb : ∀ (m j i fuel : Nat) (l : List IPNet), j + m = 32 →
    2 ^ 31 + 31 ≤ i + j → i < 2 ^ 32 →
    rangeLoop 0 (m + fuel) ⟨i, 2 ^ j % 2 ^ 32, l⟩ =
      rangeLoop 0 fuel ⟨i - m, 0, l ++ climbBlocks j m⟩ := by
  intro m
  induction m with
  | zero =>
    intro j i fuel l hj _ _
    have : j = 32 := by omega
    subst this
    simp [climbBlocks]
  | succ m ih =>
    intro j i fuel l hj hi hi32
    have hj31 : j ≤ 31 := by omega
    have hpow := two_pow_le_of_le j hj31
    rw [two_pow_mod_of_le j hj31, Nat.add_right_comm,
      rangeLoop_succ_mk 0 i (2 ^ j) _ (m + fuel) l _ (by omega) (nextBlock_zero_pow j hj31),
      dec32_of_pos i (by omega) hi32, ih (j + 1) (i - 1) fuel _ (by omega) (by omega) (by omega)]
    simp only [climbBlocks, List.append_assoc, List.singleton_append, Nat.sub_sub,
      Nat.add_comm 1 m]

theorem rangeLoop_cycle (i fuel : Nat) (l : List IPNet) (hi : 2 ^ 31 + 31 ≤ i)
    (hi32 : i < 2 ^ 32) :
    rangeLoop 0 (33 + fuel) ⟨i, 1, l⟩ =
      rangeLoop 0 fuel ⟨i - 33, 1, l ++ climbBlocks 0 32 ++ [blockAt 0 0]⟩ := by
  have h := rangeLoop_climb 32 0 i (fuel + 1) l rfl (by omega) hi32
  have h1 : (2 : Nat) ^ 0 % 2 ^ 32 = 1 := by norm_num
  rw [h1] at h
  have hf : 33 + fuel = 32 + (fuel + 1) := by omega
  rw [hf, h, rangeLoop_succ_mk 0 (i - 32) 0 _ fuel _ _ (Nat.zero_le _) nextBlock_zero_zero,
    dec32_of_pos (i - 32) (by omega) (by omega)]
  have : i - 32 - 1 = i - 33 := by omega
  rw [this]

theorem rangeLoop_climb_stops : ∀ (m j i : Nat) (l : List IPNet), j + m = 31 →
    i + j < 2 ^ 31 + 31 → i < 2 ^ 32 →
    ∃ fuel t, rangeLoop 0 fuel ⟨i, 2 ^ j, l⟩ = .ret (l ++ t) := by
  intro m
  induction m with
  | zero =>
    intro j i l hj hi _
    have : j = 31 := by omega
    subst this
    refine ⟨0, [], ?_⟩
    rw [rangeLoop, List.append_nil]
    exact if_pos (show i < 2 ^ 31 by omega)
  | succ m ih =>
    intro j i l hj hi hi32
    have hj31 : j ≤ 31 := by omega
    by_cases hc : i < 2 ^ j
    · refine ⟨0, [], ?_⟩
      rw [rangeLoop, List.append_nil]
      exact if_pos hc
    · have hpos : 0 < 2 ^ j := Nat.two_pow_pos j
      obtain ⟨fuel, t, ht⟩ := ih (j + 1) (i - 1) (l ++ [blockAt (2 ^ j) j]) (by omega) (by omega)
        (by omega)
      refine ⟨fuel + 1, blockAt (2 ^ j) j :: t, ?_⟩
      rw [rangeLoop_succ_mk 0 i (2 ^ j) _ fuel l _ (by omega) (nextBlock_zero_pow j hj31),
        dec32_of_pos i (by omega) hi32, two_pow_mod_of_le (j + 1) (by omega), ht]
      simp

theorem rangeLoop_zero_returns : ∀ (n i : Nat) (l : List IPNet), i < n → i < 2 ^ 32 →
    ∃ fuel t, rangeLoop 0 fuel ⟨i, 1, l⟩ = .ret (l ++ t) := by
  intro n
  induction n with
  | zero => intro i l h; omega
  | succ n ih =>
    intro i l hn hi32
    by_cases hbig : 2 ^ 31 + 31 ≤ i
    · obtain ⟨fuel, t, ht⟩ := ih (i - 33) (l ++ climbBlocks 0 32 ++ [blockAt 0 0]) (by omega)
        (by omega)
      refine ⟨33 + fuel, climbBlocks 0 32 ++ [blockAt 0 0] ++ t, ?_⟩
      rw [rangeLoop_cycle i fuel l hbig hi32, ht]
      simp
    · have := rangeLoop_climb_stops 31 0 i l rfl (by omega) hi32
      simpa using this

/-- For the range 0.0.0.0-0.0.0.0 the function does return, given enough
passes, and the list it returns holds the block 0.0.0.0/32 twice, so that its
blocks are not pairwise disjoint, and the block 0.0.0.1/32, which lies outside
the range. -/
theorem IPv4RangeToCIDR_zero_range :
    ∃ fuel l, IPv4RangeToCIDR fuel (.v4 0) (.v4 0) = .ret (l, none) ∧
      ¬ l.Pairwise Disjoint4 ∧ blockAt 1 0 ∈ l := by
  obtain ⟨fuel, t, ht⟩ := rangeLoop_zero_returns (0xFFFFFFFF - 33 + 1) (0xFFFFFFFF - 33)
    ([blockAt 0 0] ++ climbBlocks 0 32 ++ [blockAt 0 0]) (Nat.lt_succ_self _) (by norm_num)
  refine ⟨1 + (33 + fuel), [blockAt 0 0] ++ climbBlocks 0 32 ++ [blockAt 0 0] ++ t,
    IPv4RangeToCIDR_of_rangeLoop_ret _ 0 0 _ (Nat.le_refl _) ?_, ?_, ?_⟩
  · rw [Nat.add_comm 1, rangeLoop_succ_mk 0 0 0 _ _ [] _ (Nat.le_refl _) nextBlock_zero_zero,
      dec32_zero, rangeLoop_cycle 0xFFFFFFFF fuel _ (by norm_num) (by norm_num)]
    exact ht
  · intro hp
    simp only [List.nil_append, List.singleton_append, List.cons_append, List.pairwise_cons] at hp
    have h := hp.1 (blockAt 0 0) (by simp)
    exact h 0 (by norm_num) ⟨by decide!, by decide!⟩
  · simp [climbBlocks]


/-- C2 (fails on the code): for the range 255.255.255.255-255.255.255.255 the
first pass emits 255.255.255.255/32 and the addition wraps `startAddr` to 0;
the loop condition still holds, the second pass emits 0.0.0.0/0, which
contains the address 0.0.0.0 below the start of the range, and the loop goes
on without end, so that the function never returns. For the range
0.0.0.0-0.0.0.0 the first pass emits 0.0.0.0/32 and `i--` wraps the counter
from 0 to 255.255.255.255; the loop condition still holds, the second pass
emits 0.0.0.1/32, which contains the address 0.0.0.1 above the end of the
range, and the list that the function returns in the end holds that block. -/
theorem IPv4RangeToCIDR_start_wraps_at_top :
    (passes 0xFFFFFFFF 2 ⟨0xFFFFFFFF, 0xFFFFFFFF, []⟩ =
        some ⟨0xFFFFFFFD, 0, [⟨0xFFFFFFFF, 0xFFFFFFFF, 32⟩, ⟨0, 0, 32⟩]⟩
      ∧ IPNet.Contains4 ⟨0, 0, 32⟩ 0 = true
      ∧ ∀ fuel, IPv4RangeToCIDR fuel (.v4 0xFFFFFFFF) (.v4 0xFFFFFFFF) = .running)
    ∧ (passes 0 2 ⟨0, 0, []⟩ =
        some ⟨0xFFFFFFFE, 2, [⟨0, 0xFFFFFFFF, 32⟩, ⟨1, 0xFFFFFFFF, 32⟩]⟩
      ∧ IPNet.Contains4 ⟨1, 0xFFFFFFFF, 32⟩ 1 = true
      ∧ ∃ fuel l, IPv4RangeToCIDR fuel (.v4 0) (.v4 0) = .ret (l, none) ∧
          (⟨1, 0xFFFFFFFF, 32⟩ : IPNet) ∈ l) := by
  have hb : nextBlock 0xFFFFFFFF 0xFFFFFFFF = some (⟨0xFFFFFFFF, 0xFFFFFFFF, 32⟩, 0) := by decide!
  have hblock : blockAt 1 0 = ⟨1, 0xFFFFFFFF, 32⟩ := by decide!
  refine ⟨⟨by decide!, by decide!, ?_⟩, by decide!, by decide!, ?_⟩
  · intro fuel
    apply IPv4RangeToCIDR_of_rangeLoop_running _ _ _ (Nat.le_refl _)
    cases fuel with
    | zero => simp [rangeLoop]
    | succ f =>
      rw [rangeLoop_succ_mk _ _ _ _ _ _ _ (Nat.le_refl _) hb]
      exact rangeLoop_top_zero_running _ _ _
  · obtain ⟨fuel, l, h1, _, h3⟩ := IPv4RangeToCIDR_zero_range
    exact ⟨fuel, l, h1, hblock ▸ h3⟩

/-- C3 (fails on the code): for the range 0.0.0.0-0.0.0.0 the function returns,
given enough passes, a list whose blocks are not pairwise disjoint (it holds
0.0.0.0/32 twice, the second copy after 34 passes). For the range
0.0.0.0-255.255.255.255 every pass of the loop emits the block 0.0.0.0/0
again and leaves `startAddr` at 0, so that after `k` passes the list holds `k`
copies of that block, and the function never returns. -/
theorem IPv4RangeToCIDR_repeats_block :
    (∃ fuel l, IPv4RangeToCIDR fuel (.v4 0) (.v4 0) = .ret (l, none) ∧
        ¬ l.Pairwise Disjoint4)
      ∧ (passes 0 34 ⟨0, 0, []⟩).map (fun s => s.cidrList.count ⟨0, 0xFFFFFFFF, 32⟩) = some 2
      ∧ (∀ k, ∃ j, passes 0xFFFFFFFF k ⟨0xFFFFFFFF, 0, []⟩ =
        some ⟨j, 0, List.replicate k ⟨0, 0, 32⟩⟩)
      ∧ ∀ fuel, IPv4RangeToCIDR fuel (.v4 0) (.v4 0xFFFFFFFF) = .running := by
  refine ⟨?_, by decide!, fun k => ?_, fun fuel => ?_⟩
  · obtain ⟨fuel, l, h1, h2, _⟩ := IPv4RangeToCIDR_zero_range
    exact ⟨fuel, l, h1, h2⟩
  · simpa using passes_top_zero k 0xFFFFFFFF []
  · exact IPv4RangeToCIDR_of_rangeLoop_running _ _ _ (Nat.zero_le _)
      (rangeLoop_top_zero_running _ _ _)

/-! ## Theorems: the text of a block -/

theorem parseIPv4Fields_uitoa (b : Nat) (hb : b < 256) (rest : GoString) (first prevDot : Bool)
    (pos : Nat) (fields : List Nat) :
    parseIPv4Fields (uitoa b ++ rest) first prevDot 0 pos 0 fields =
      parseIPv4Fields rest false false b pos (uitoa b).length fields := by
  unfold uitoa
  by_cases h10 : b < 10
  · simp only [h10, if_true, List.singleton_append, List.length_singleton]
    rw [parseIPv4Fields, if_pos (by omega), if_neg (by omega), if_neg (by omega)]
    simp only [Nat.zero_mul, Nat.zero_add, Nat.add_sub_cancel_left]
  · by_cases h100 : b < 100
    · simp only [h10, h100, if_false, if_true, List.cons_append, List.nil_append,
        List.length_cons, List.length_nil]
      rw [parseIPv4Fields, if_pos (by omega), if_neg (by omega), if_neg (by omega)]
      rw [parseIPv4Fields, if_pos (by omega), if_neg (by omega), if_neg (by omega)]
      have hv : (0 * 10 + (48 + b / 10 - 48)) * 10 + (48 + b % 10 - 48) = b := by omega
      rw [hv]
    · simp only [h10, h100, if_false, List.cons_append, List.nil_append,
        List.length_cons, List.length_nil]
      rw [parseIPv4Fields, if_pos (by omega), if_neg (by omega), if_neg (by omega)]
      rw [parseIPv4Fields, if_pos (by omega), if_neg (by omega), if_neg (by omega)]
      rw [parseIPv4Fields, if_pos (by omega), if_neg (by omega), if_neg (by omega)]
      have hv : ((0 * 10 + (48 + b / 100 - 48)) * 10 + (48 + b / 10 % 10 - 48)) * 10 +
          (48 + b % 10 - 48) = b := by omega
      rw [hv]

theorem uitoa_ne_nil (b : Nat) : uitoa b ≠ [] := by
  unfold uitoa
  split_ifs <;> simp

theorem uitoa_digits (b : Nat) (hb : b < 256) : ∀ c ∈ uitoa b, 48 ≤ c ∧ c ≤ 57 := by
  unfold uitoa
  intro c hc
  split_ifs at hc <;> simp only [List.mem_cons, List.mem_singleton, List.not_mem_nil, or_false] at hc <;>
    omega

theorem parseIPv4Fields_dot (rest : GoString) (val pos digLen : Nat) (fields : List Nat)
    (hrest : rest ≠ []) (hpos : pos < 3) :
    parseIPv4Fields (46 :: rest) false false val pos digLen fields =
      parseIPv4Fields rest false true 0 (pos + 1) 0 (fields ++ [val]) := by
  rw [parseIPv4Fields, if_neg (by omega), if_pos rfl, if_neg (by simp [hrest]), if_neg (by omega)]

theorem parseIPv4_dotted (a : Nat) (ha : a < 2 ^ 32) : parseIPv4 (dotted a) = some a := by
  have h3 : a / 2 ^ 24 % 256 < 256 := Nat.mod_lt _ (by norm_num)
  have h2 : a / 2 ^ 16 % 256 < 256 := Nat.mod_lt _ (by norm_num)
  have h1 : a / 2 ^ 8 % 256 < 256 := Nat.mod_lt _ (by norm_num)
  have h0 : a % 256 < 256 := Nat.mod_lt _ (by norm_num)
  unfold parseIPv4 dotted
  simp only [List.append_assoc, List.singleton_append, List.cons_append, List.nil_append]
  rw [parseIPv4Fields_uitoa _ h3, parseIPv4Fields_dot _ _ _ _ _ (by simp [uitoa_ne_nil]) (by omega),
    parseIPv4Fields_uitoa _ h2, parseIPv4Fields_dot _ _ _ _ _ (by simp [uitoa_ne_nil]) (by omega),
    parseIPv4Fields_uitoa _ h1, parseIPv4Fields_dot _ _ _ _ _ (uitoa_ne_nil _) (by omega)]
  have := parseIPv4Fields_uitoa _ h0 [] false true 3
    ([] ++ [a / 2 ^ 24 % 256] ++ [a / 2 ^ 16 % 256] ++ [a / 2 ^ 8 % 256])
  rw [List.append_nil] at this
  rw [this, parseIPv4Fields]
  simp only [Nat.lt_irrefl, if_false, List.nil_append, List.cons_append, List.singleton_append]
  unfold ipv4
  congr 1
  omega

theorem parseAddrFrom_digits (v6 : IPv6Text) (s r : GoString) : ∀ (ds : GoString),
    (∀ c ∈ ds, 48 ≤ c ∧ c ≤ 57) →
    parseAddrFrom v6 s (ds ++ 46 :: r) = (parseIPv4 s).map Addr.a4 := by
  intro ds
  induction ds with
  | nil => intro _; simp [parseAddrFrom]
  | cons c cs ih =>
    intro h
    have hc := h c (List.mem_cons_self _ _)
    rw [List.cons_append, parseAddrFrom, if_neg (by omega), if_neg (by omega), if_neg (by omega)]
    exact ih (fun x hx => h x (List.mem_cons_of_mem _ hx))

theorem ParseAddr_dotted (v6 : IPv6Text) (a : Nat) (ha : a < 2 ^ 32) :
    ParseAddr v6 (dotted a) = some (.a4 a) := by
  have h3 : a / 2 ^ 24 % 256 < 256 := Nat.mod_lt _ (by norm_num)
  unfold ParseAddr
  have hs : dotted a = uitoa (a / 2 ^ 24 % 256) ++ 46 :: (uitoa (a / 2 ^ 16 % 256) ++ [46] ++
      uitoa (a / 2 ^ 8 % 256) ++ [46] ++ uitoa (a % 256)) := by
    unfold dotted
    simp only [List.append_assoc, List.singleton_append, List.cons_append, List.nil_append]
  have := parseAddrFrom_digits v6 (dotted a) (uitoa (a / 2 ^ 16 % 256) ++ [46] ++
      uitoa (a / 2 ^ 8 % 256) ++ [46] ++ uitoa (a % 256)) (uitoa (a / 2 ^ 24 % 256))
      (uitoa_digits _ h3)
  rw [← hs] at this
  rw [this, parseIPv4_dotted a ha]
  rfl

theorem cut_append (sep : Nat) (y : GoString) : ∀ (x : GoString), (∀ c ∈ x, c ≠ sep) →
    cut sep (x ++ sep :: y) = some (x, y) := by
  intro x
  induction x with
  | nil => intro _; simp [cut]
  | cons c cs ih =>
    intro h
    rw [List.cons_append, cut, if_neg (h c (List.mem_cons_self _ _)),
      ih (fun z hz => h z (List.mem_cons_of_mem _ hz))]
    rfl

theorem dotted_no_slash (a : Nat) : ∀ c ∈ dotted a, c ≠ 47 := by
  have h3 : a / 2 ^ 24 % 256 < 256 := Nat.mod_lt _ (by norm_num)
  have h2 : a / 2 ^ 16 % 256 < 256 := Nat.mod_lt _ (by norm_num)
  have h1 : a / 2 ^ 8 % 256 < 256 := Nat.mod_lt _ (by norm_num)
  have h0 : a % 256 < 256 := Nat.mod_lt _ (by norm_num)
  intro c hc
  unfold dotted at hc
  simp only [List.mem_append, List.mem_singleton] at hc
  rcases hc with (((((h | h) | h) | h) | h) | h) | h
  · have := uitoa_digits _ h3 c h; omega
  · omega
  · have := uitoa_digits _ h2 c h; omega
  · omega
  · have := uitoa_digits _ h1 c h; omega
  · omega
  · have := uitoa_digits _ h0 c h; omega

theorem dtoiFrom_Itoa : ∀ m : Nat, m ≤ 32 →
    Itoa (m : Int) ≠ [] ∧ dtoiFrom (Itoa (m : Int)) 0 = some m := by
  decide

/-- The text `LongToIPv4(a) + "/" + strconv.Itoa(m)` that `IPv4RangeToCIDR`
hands to `net.ParseCIDR` is parsed to the network that `parseCIDR4` gives. -/
theorem ParseCIDR_LongToIPv4 (v6 : IPv6Text) (a m : Nat) (ha : a < 2 ^ 32) (hm : m ≤ 32) :
    ParseCIDR v6 (LongToIPv4 a ++ str "/" ++ Itoa (m : Int)) = parseCIDR4 a (m : Int) := by
  have hstr : str "/" = [47] := by decide
  obtain ⟨hne, hd⟩ := dtoiFrom_Itoa m hm
  unfold ParseCIDR LongToIPv4
  rw [hstr, List.append_assoc, List.singleton_append, cut_append 47 _ _ (dotted_no_slash a)]
  simp only [ParseAddr_dotted v6 a ha, hne, if_false, hd, Nat.not_lt.mpr hm]
  rw [parseCIDR4_of_le a m hm]

/-! ## Theorems: IsDomainName -/

/-! ### Labels -/

theorem labels_ne_nil (bs : GoString) : labels bs ≠ [] := by
  cases bs with
  | nil => simp [labels]
  | cons c cs =>
    rw [labels]
    split_ifs
    · simp
    · split <;> simp

theorem labels_cons_dot (cs : GoString) : labels (46 :: cs) = [] :: labels cs := by
  simp [labels]

theorem labels_cons_of_ne (c : Nat) (cs l : GoString) (ls : List GoString) (hc : c ≠ 46)
    (h : labels cs = l :: ls) : labels (c :: cs) = (c :: l) :: ls := by
  rw [labels, if_neg hc, h]

theorem labels_exists (bs : GoString) : ∃ l ls, labels bs = l :: ls := by
  cases h : labels bs with
  | nil => exact absurd h (labels_ne_nil bs)
  | cons l ls => exact ⟨l, ls, rfl⟩

/-- The labels are the pieces that `List.splitOn` gives at the byte `'.'`. -/
theorem labels_eq_splitOn (name : GoString) : labels name = name.splitOn 46 := by
  induction name with
  | nil => simp [labels, List.splitOn]
  | cons c cs ih =>
    rw [labels, List.splitOn, List.splitOnP_cons]
    by_cases h : c = 46
    · subst h
      simp only [if_true, beq_self_eq_true]
      rw [ih, List.splitOn]
    · have hb : (c == 46) = false := by simpa using h
      simp only [h, if_false, hb, Bool.false_eq_true]
      rw [← List.splitOn, ← ih]
      cases hl : labels cs with
      | nil => exact absurd hl (labels_ne_nil cs)
      | cons l ls => simp [List.modifyHead]

/-! ### Character classes -/

theorem isLabelChar_ne_dot (c : Nat) (h : isLabelChar c = true) : c ≠ 46 := by
  intro hc
  subst hc
  simp [isLabelChar, isLetter, isDigit] at h

/-! ### What an accepting scan says about the name -/

theorem domainStep_start (s s1 : DomainState) (c : Nat) (hs : s.st = 0)
    (h : domainStep s c = some s1) :
    isLabelChar c = true ∧ c ≠ 45 ∧ s1.st = 2 ∧ s1.nLabel = 1 ∧ s1.nLevel = s.nLevel := by
  unfold domainStep at h
  simp only [hs, true_or, if_true] at h
  by_cases hl : isLetter c = true
  · have hne : c ≠ 45 := by
      intro hc; subst hc; simp [isLetter] at hl
    simp only [hl, Bool.not_true, Bool.false_eq_true, if_false] at h
    split_ifs at h <;> cases h <;> simp [isLabelChar, hl, hne]
  · simp only [Bool.not_eq_true] at hl
    simp only [hl, Bool.not_false, if_true] at h
    by_cases hd : isDigit c = true
    · have hne : c ≠ 45 := by
        intro hc; subst hc; simp [isDigit] at hd
      simp only [hd, Bool.not_true, Bool.false_eq_true, if_false] at h
      cases h
      simp [isLabelChar, hd, hne]
    · simp only [Bool.not_eq_true] at hd
      simp [hd] at h

theorem domainStep_dot (s s1 : DomainState) (hs : s.st = 2)
    (h : domainStep s 46 = some s1) :
    s.prevChar ≠ 45 ∧ s1.st = 0 ∧ s1.nLevel = s.nLevel + 1 := by
  unfold domainStep at h
  simp only [hs, OfNat.ofNat_ne_zero, OfNat.ofNat_ne_one, or_self, if_false, if_true] at h
  split_ifs at h with hp
  cases h
  exact ⟨hp, rfl, rfl⟩

theorem domainStep_char (s s1 : DomainState) (c : Nat) (hs : s.st = 2) (hc : c ≠ 46)
    (h : domainStep s c = some s1) :
    isLabelChar c = true ∧ s.nLabel ≠ 63 ∧ s1.st = 2 ∧ s1.nLabel = s.nLabel + 1 ∧
      s1.nLevel = s.nLevel := by
  unfold domainStep at h
  simp only [hs, OfNat.ofNat_ne_zero, OfNat.ofNat_ne_one, or_self, if_false, if_true, hc] at h
  split_ifs at h with h63 hbad <;> cases h <;> refine ⟨?_, h63, rfl, rfl, rfl⟩ <;>
    (simp only [isLabelChar]; revert hbad
     cases isLetter c <;> cases isDigit c <;> cases (c == 45) <;> simp)


theorem domainScan_sound : ∀ (bs : GoString) (s s' : DomainState),
    domainScan s bs = some s' → s'.st = 2 →
    (s.st = 0 → (∀ l ∈ labels bs, LabelOK l) ∧ s'.nLevel + 1 = s.nLevel + (labels bs).length) ∧
    (s.st = 2 → 1 ≤ s.nLabel → s.nLabel ≤ 63 →
      ∃ l ls, labels bs = l :: ls ∧ s.nLabel + l.length ≤ 63 ∧
        (∀ c ∈ l, isLabelChar c = true) ∧ (∀ l' ∈ ls, LabelOK l') ∧
        s'.nLevel = s.nLevel + ls.length) := by
  intro bs
  induction bs with
  | nil =>
    intro s s' h h2
    simp only [domainScan, Option.some.injEq] at h
    subst h
    refine ⟨fun h0 => ?_, fun _ _ h63 => ?_⟩
    · rw [h0] at h2; cases h2
    · exact ⟨[], [], rfl, by simpa using h63, by simp, by simp, by simp⟩
  | cons c cs ih =>
    intro s s' h h2
    rw [domainScan] at h
    cases hstep : domainStep s c with
    | none => rw [hstep] at h; cases h
    | some s1 =>
      rw [hstep] at h
      simp only at h
      have ih1 := ih s1 s' h h2
      refine ⟨fun h0 => ?_, fun hs2 hn1 hn63 => ?_⟩
      · obtain ⟨hc, _, hst, hnl, hlv⟩ := domainStep_start s s1 c h0 hstep
        obtain ⟨l, ls, hl, hlen, hchars, hrest, hlevel⟩ :=
          ih1.2 hst (by omega) (by omega)
        have hlab := labels_cons_of_ne c cs l ls (isLabelChar_ne_dot c hc) hl
        rw [hlab]
        refine ⟨?_, ?_⟩
        · intro l' hl'
          rcases List.mem_cons.mp hl' with rfl | hmem
          · refine ⟨by simp, by simp only [List.length_cons]; omega, ?_⟩
            intro x hx
            rcases List.mem_cons.mp hx with rfl | hx'
            · exact hc
            · exact hchars x hx'
          · exact hrest l' hmem
        · simp only [List.length_cons]; omega
      · by_cases hdot : c = 46
        · subst hdot
          obtain ⟨_, hst, hlv⟩ := domainStep_dot s s1 hs2 hstep
          obtain ⟨hall, hlevel⟩ := ih1.1 hst
          refine ⟨[], labels cs, labels_cons_dot cs, by simpa using hn63, by simp, hall, ?_⟩
          omega
        · obtain ⟨hc, h63, hst, hnl, hlv⟩ := domainStep_char s s1 c hs2 hdot hstep
          obtain ⟨l, ls, hl, hlen, hchars, hrest, hlevel⟩ :=
            ih1.2 hst (by omega) (by omega)
          refine ⟨c :: l, ls, labels_cons_of_ne c cs l ls hdot hl, ?_, ?_, hrest, by omega⟩
          · simp only [List.length_cons]; omega
          · intro x hx
            rcases List.mem_cons.mp hx with rfl | hx'
            · exact hc
            · exact hchars x hx'

/-- C6: every name that `IsDomainName` accepts has at most 253 bytes and at
least 2 labels, every label has 1 to 63 bytes, and every byte of every label
is one of `[A-Za-z0-9-]`. -/
theorem IsDomainName_accepts_only_wellformed (name : GoString)
    (h : IsDomainName name = true) :
    name.length ≤ 253 ∧ 2 ≤ (labels name).length ∧
      ∀ l ∈ labels name, 1 ≤ l.length ∧ l.length ≤ 63 ∧ ∀ c ∈ l, isLabelChar c = true := by
  unfold IsDomainName at h
  split_ifs at h with hlen
  cases hscan : domainScan domainInit name with
  | none => rw [hscan] at h; cases h
  | some s' =>
    rw [hscan] at h
    simp only [domainFinal] at h
    split_ifs at h with hfin
    simp only [not_or] at hfin
    have hst : s'.st = 2 := by
      by_contra hne
      exact hfin.1 hne
    obtain ⟨hall, hlevel⟩ := (domainScan_sound name domainInit s' hscan hst).1 rfl
    have hne := labels_ne_nil name
    have hpos : 1 ≤ (labels name).length := List.length_pos.mpr hne
    have hlv : s'.nLevel ≠ 1 := hfin.2.2.1
    simp only [domainInit] at hlevel
    refine ⟨by omega, by omega, hall⟩


/-! ### Names that meet the rules are accepted -/

theorem domainStep_start_some (s : DomainState) (c : Nat) (hs : s.st = 0)
    (hc : isLabelChar c = true) (h45 : c ≠ 45) :
    ∃ s1, domainStep s c = some s1 ∧ s1.st = 2 ∧ s1.nLabel = 1 ∧ s1.nLevel = s.nLevel ∧
      s1.prevChar = s.prevChar ∧ s1.charOnly = (s.charOnly && isLetter c) ∧
      s1.xn = (if c = 120 ∨ c = 88 then 1 else s.xn) := by
  unfold domainStep
  simp only [hs, true_or, if_true]
  have hld : isLetter c = true ∨ isDigit c = true := by
    simp only [isLabelChar, Bool.or_eq_true, beq_iff_eq] at hc
    rcases hc with (h | h) | h
    · exact Or.inl h
    · exact Or.inr h
    · exact absurd h h45
  by_cases hl : isLetter c = true
  · simp only [hl, Bool.not_true, Bool.false_eq_true, if_false, Bool.and_true]
    split_ifs with hx
    · exact ⟨_, rfl, rfl, rfl, rfl, rfl, rfl, rfl⟩
    · exact ⟨_, rfl, rfl, rfl, rfl, rfl, rfl, rfl⟩
  · simp only [Bool.not_eq_true] at hl
    have hd : isDigit c = true := by
      rcases hld with h | h
      · rw [hl] at h; cases h
      · exact h
    have hx : ¬ (c = 120 ∨ c = 88) := by
      rintro (h | h) <;> subst h <;> simp [isLetter] at hl
    simp only [hl, hd, Bool.not_false, Bool.not_true, if_true, Bool.false_eq_true, if_false,
      Bool.and_false, hx]
    exact ⟨_, rfl, rfl, rfl, rfl, rfl, rfl, rfl⟩

theorem domainStep_dot_some (s : DomainState) (hs : s.st = 2) (hp : s.prevChar ≠ 45) :
    ∃ s1, domainStep s 46 = some s1 ∧ s1.st = 0 ∧ s1.nLevel = s.nLevel + 1 ∧
      s1.charOnly = true ∧ s1.xn = 0 ∧ s1.prevChar = s.prevChar := by
  unfold domainStep
  simp only [hs, OfNat.ofNat_ne_zero, OfNat.ofNat_ne_one, or_self, if_false, if_true, hp]
  exact ⟨_, rfl, rfl, rfl, rfl, rfl, rfl⟩

theorem domainStep_char_some (s : DomainState) (c : Nat) (hs : s.st = 2)
    (hc : isLabelChar c = true) (h63 : s.nLabel ≠ 63) :
    ∃ s1, domainStep s c = some s1 ∧ s1.st = 2 ∧ s1.nLabel = s.nLabel + 1 ∧
      s1.nLevel = s.nLevel ∧ s1.prevChar = c ∧ s1.charOnly = (s.charOnly && isLetter c) ∧
      s1.xn = xnNext s.xn c := by
  have hdot := isLabelChar_ne_dot c hc
  have hbad : (!(isLetter c) && !(isDigit c || c == 45)) = false := by
    revert hc
    simp only [isLabelChar]
    cases isLetter c <;> cases isDigit c <;> cases (c == 45) <;> simp
  unfold domainStep
  simp only [hs, OfNat.ofNat_ne_zero, OfNat.ofNat_ne_one, or_self, if_false, if_true, hdot,
    h63, hbad, Bool.false_eq_true]
  refine ⟨_, rfl, rfl, rfl, rfl, rfl, ?_, ?_⟩
  · cases isLetter c <;> simp
  · simp only [xnNext]

theorem xnRun_of_four_le : ∀ (l : GoString) (xn : Nat), 4 ≤ xn → xnRun xn l = xn + l.length := by
  intro l
  induction l with
  | nil => intro xn _; simp [xnRun]
  | cons c cs ih =>
    intro xn h
    have h1 : xnNext xn c = xn + 1 := by
      simp only [xnNext]
      rw [if_pos (by omega), if_neg (by omega)]
    have := ih (xn + 1) (by omega)
    simp only [xnRun, List.foldl_cons, h1, List.length_cons] at this ⊢
    omega

theorem tldWellFormed_cons (c : Nat) (l : GoString) (h : tldWellFormed (c :: l) = true) :
    (isLetter c = true ∧ l.all isLetter = true) ∨ (c = 120 ∧ 8 ≤ xnRun 1 l) := by
  simp only [tldWellFormed, Bool.or_eq_true, Bool.and_eq_true, decide_eq_true_eq] at h
  rcases h with h | ⟨⟨hp, _⟩, hlen⟩
  · left
    simpa using h
  · right
    match l, hp, hlen with
    | c1 :: c2 :: c3 :: rest, hp, hlen =>
      simp only [xnMarker, List.isPrefixOf, Bool.and_eq_true, beq_iff_eq, Bool.and_true] at hp
      obtain ⟨h0, h1, h2, h3⟩ := hp
      subst h0 h1 h2 h3
      refine ⟨rfl, ?_⟩
      have hrun : xnRun 1 (110 :: 45 :: 45 :: rest) = xnRun 4 rest := by
        simp [xnRun, xnNext, xnMarker]
      rw [hrun, xnRun_of_four_le rest 4 (Nat.le_refl 4)]
      simp only [List.length_cons] at hlen
      omega
    | [], hp, _ => simp [xnMarker, List.isPrefixOf] at hp
    | [_], hp, _ => simp [xnMarker, List.isPrefixOf] at hp
    | [_, _], hp, _ => simp [xnMarker, List.isPrefixOf] at hp


theorem getLast?_getD_cons (c d : Nat) (l : GoString) :
    (c :: l).getLast?.getD d = l.getLast?.getD c := by
  cases l with
  | nil => simp
  | cons x xs =>
    rw [List.getLast?_cons_cons]
    cases h : (x :: xs).getLast? with
    | none => simp at h
    | some y => simp

theorem domainScan_complete : ∀ (bs : GoString) (s : DomainState),
    (s.st = 2 → 1 ≤ s.nLabel → ∀ l ls, labels bs = l :: ls → s.nLabel + l.length ≤ 63 →
      (∀ c ∈ l, isLabelChar c = true) → TailOK s l ls → AcceptsFrom s bs ls.length) ∧
    (s.st = 0 → s.charOnly = true → s.xn = 0 → s.prevChar ≠ 45 → RestOK (labels bs) →
      AcceptsFrom s bs ((labels bs).length - 1)) := by
  intro bs
  induction bs with
  | nil =>
    intro s
    refine ⟨fun hst hn l ls hl hlen _ htail => ?_, fun _ _ _ _ hrest => ?_⟩
    · simp only [labels, List.cons.injEq] at hl
      obtain ⟨rfl, rfl⟩ := hl
      simp only [TailOK, List.length_nil, Nat.add_zero, List.all_nil, and_true, xnRun,
        List.foldl_nil] at htail
      exact ⟨s, rfl, hst, by omega, htail.2, by simp⟩
    · simp [labels, RestOK, LabelOK] at hrest
  | cons c cs ih =>
    intro s
    refine ⟨fun hst hn l ls hl hlen hchars htail => ?_, fun hst hco hxn hprev hrest => ?_⟩
    · by_cases hdot : c = 46
      · subst hdot
        rw [labels_cons_dot] at hl
        simp only [List.cons.injEq] at hl
        obtain ⟨rfl, rfl⟩ := hl
        obtain ⟨l', ls', hl'⟩ := labels_exists cs
        rw [hl'] at htail
        simp only [TailOK, List.getLast?_nil, Option.getD_none] at htail
        obtain ⟨s1, hstep, hst1, hlv1, hco1, hxn1, hp1⟩ := domainStep_dot_some s hst htail.1
        have hacc := (ih s1).2 hst1 hco1 hxn1 (by rw [hp1]; exact htail.1)
          (by rw [hl']; exact htail.2)
        obtain ⟨s', hscan, h2, hnl, hfin, hlv⟩ := hacc
        refine ⟨s', ?_, h2, hnl, hfin, ?_⟩
        · rw [domainScan, hstep]
          exact hscan
        · have hpos : 1 ≤ (labels cs).length := List.length_pos.mpr (labels_ne_nil cs)
          omega
      · obtain ⟨l0, ls0, hl0⟩ := labels_exists cs
        rw [labels_cons_of_ne c cs l0 ls0 hdot hl0] at hl
        simp only [List.cons.injEq] at hl
        obtain ⟨rfl, rfl⟩ := hl
        simp only [List.length_cons] at hlen
        have hcc : isLabelChar c = true := hchars c (List.mem_cons_self _ _)
        obtain ⟨s1, hstep, hst1, hnl1, hlv1, hp1, hco1, hxn1⟩ :=
          domainStep_char_some s c hst hcc (by omega)
        have htail1 : TailOK s1 l0 ls0 := by
          cases ls0 with
          | nil =>
            simp only [TailOK, List.length_cons, List.all_cons, Bool.and_eq_true, xnRun,
              List.foldl_cons] at htail ⊢
            refine ⟨by omega, ?_⟩
            rcases htail.2 with ⟨h1, h2, h3⟩ | h
            · left
              rw [hco1, h1, h2]
              exact ⟨rfl, h3⟩
            · right
              rw [hxn1]
              exact h
          | cons l' lt =>
            simp only [TailOK] at htail ⊢
            rw [getLast?_getD_cons] at htail
            rw [hp1]
            exact htail
        have hacc := (ih s1).1 hst1 (by omega) l0 ls0 hl0 (by omega)
          (fun x hx => hchars x (List.mem_cons_of_mem _ hx)) htail1
        obtain ⟨s', hscan, h2, hnl, hfin, hlv⟩ := hacc
        refine ⟨s', ?_, h2, hnl, hfin, by omega⟩
        rw [domainScan, hstep]
        exact hscan
    · by_cases hdot : c = 46
      · subst hdot
        rw [labels_cons_dot] at hrest
        obtain ⟨l', ls', hl'⟩ := labels_exists cs
        rw [hl'] at hrest
        simp [RestOK, LabelOK] at hrest
      · obtain ⟨l0, ls0, hl0⟩ := labels_exists cs
        have hlab := labels_cons_of_ne c cs l0 ls0 hdot hl0
        rw [hlab] at hrest ⊢
        have hfirst : LabelOK (c :: l0) ∧ (c :: l0).head? ≠ some 45 := by
          cases ls0 with
          | nil => exact ⟨hrest.1, hrest.2.1⟩
          | cons l' lt => exact ⟨hrest.1, hrest.2.1⟩
        obtain ⟨⟨_, hlen, hchars⟩, hhead⟩ := hfirst
        simp only [List.length_cons] at hlen
        have hcc : isLabelChar c = true := hchars c (List.mem_cons_self _ _)
        have h45 : c ≠ 45 := by
          intro h; apply hhead; simp [h]
        obtain ⟨s1, hstep, hst1, hnl1, hlv1, hp1, hco1, hxn1⟩ :=
          domainStep_start_some s c hst hcc h45
        have htail1 : TailOK s1 l0 ls0 := by
          cases ls0 with
          | nil =>
            simp only [RestOK, List.length_cons] at hrest
            obtain ⟨_, _, hlen2, htld⟩ := hrest
            simp only [TailOK]
            refine ⟨by omega, ?_⟩
            rcases tldWellFormed_cons c l0 htld with ⟨h1, h2⟩ | ⟨h1, h2⟩
            · left
              rw [hco1, hco, h1]
              exact ⟨rfl, h2⟩
            · right
              rw [hxn1, if_pos (Or.inl h1)]
              exact h2
          | cons l' lt =>
            simp only [RestOK] at hrest
            obtain ⟨_, _, hlast, hr⟩ := hrest
            simp only [TailOK]
            refine ⟨?_, hr⟩
            rw [hp1]
            cases l0 with
            | nil => simpa using hprev
            | cons x xs =>
              rw [List.getLast?_cons_cons] at hlast
              cases hx : (x :: xs).getLast? with
              | none => simp at hx
              | some y =>
                rw [hx] at hlast
                simp only [Option.getD_some]
                intro hy
                apply hlast
                rw [hy]
        have hacc := (ih s1).1 hst1 (by omega) l0 ls0 hl0 (by omega)
          (fun x hx => hchars x (List.mem_cons_of_mem _ hx)) htail1
        obtain ⟨s', hscan, h2, hnl, hfin, hlv⟩ := hacc
        refine ⟨s', ?_, h2, hnl, hfin, ?_⟩
        · rw [domainScan, hstep]
          exact hscan
        · simp only [List.length_cons, Nat.add_sub_cancel]
          omega

theorem RestOK_of_forall : ∀ (L : List GoString), L ≠ [] →
    (∀ l ∈ L, LabelOK l) → (∀ l ∈ L, l.head? ≠ some 45 ∧ l.getLast? ≠ some 45) →
    tldWellFormed (L.getLastD []) = true → 2 ≤ (L.getLastD []).length → RestOK L := by
  intro L
  induction L with
  | nil => intro h; exact absurd rfl h
  | cons l ls ih =>
    intro _ hall hends htld hlen
    cases ls with
    | nil =>
      simp only [List.getLastD_cons, List.getLastD_nil] at htld hlen
      exact ⟨hall l (List.mem_cons_self _ _), (hends l (List.mem_cons_self _ _)).1, hlen, htld⟩
    | cons l' lt =>
      refine ⟨hall l (List.mem_cons_self _ _), (hends l (List.mem_cons_self _ _)).1,
        (hends l (List.mem_cons_self _ _)).2, ?_⟩
      apply ih (by simp) (fun x hx => hall x (List.mem_cons_of_mem _ hx))
        (fun x hx => hends x (List.mem_cons_of_mem _ hx))
      · simpa using htld
      · simpa using hlen

/-- C9 (amended): `IsDomainName` accepts every name that meets the listed
rules and whose final label has at least 2 bytes. -/
theorem IsDomainName_accepts_rules (name : GoString) (h : DomainRules name)
    (htld : 2 ≤ ((labels name).getLastD []).length) : IsDomainName name = true := by
  obtain ⟨hlen, hcount, hall, hends, hfinal⟩ := h
  have hrest : RestOK (labels name) :=
    RestOK_of_forall (labels name) (labels_ne_nil name) hall hends hfinal htld
  obtain ⟨s', hscan, h2, hnl, hfin, hlv⟩ :=
    (domainScan_complete name domainInit).2 rfl rfl rfl (by decide) hrest
  unfold IsDomainName
  rw [if_neg (by omega), hscan]
  simp only [domainFinal]
  rw [if_neg]
  simp only [not_or, not_and, not_lt, Bool.not_eq_true', Decidable.not_not]
  refine ⟨h2, hnl, ?_, ?_⟩
  · simp only [domainInit] at hlv
    omega
  · intro hco
    rcases hfin with h | h
    · rw [h] at hco; cases hco
    · exact h


/-! ### The final label of an accepted name -/

theorem domainStep_start_inv (s s1 : DomainState) (c : Nat) (hs : s.st = 0)
    (h : domainStep s c = some s1) :
    s1.st = 2 ∧ s1.charOnly = (s.charOnly && isLetter c) ∧
      s1.xn = (if c = 120 ∨ c = 88 then 1 else s.xn) := by
  obtain ⟨hc, h45, _⟩ := domainStep_start s s1 c hs h
  obtain ⟨s2, h2, hst, _, _, _, hco, hxn⟩ := domainStep_start_some s c hs hc h45
  rw [h] at h2
  cases h2
  exact ⟨hst, hco, hxn⟩

theorem domainStep_char_inv (s s1 : DomainState) (c : Nat) (hs : s.st = 2) (hc : c ≠ 46)
    (h : domainStep s c = some s1) :
    s1.st = 2 ∧ s1.charOnly = (s.charOnly && isLetter c) ∧ s1.xn = xnNext s.xn c := by
  obtain ⟨hlc, h63, _⟩ := domainStep_char s s1 c hs hc h
  obtain ⟨s2, h2, hst, _, _, _, hco, hxn⟩ := domainStep_char_some s c hs hlc h63
  rw [h] at h2
  cases h2
  exact ⟨hst, hco, hxn⟩

theorem domainStep_dot_inv (s s1 : DomainState) (hs : s.st = 2)
    (h : domainStep s 46 = some s1) :
    s1.st = 0 ∧ s1.charOnly = true ∧ s1.xn = 0 := by
  obtain ⟨hp, _⟩ := domainStep_dot s s1 hs h
  obtain ⟨s2, h2, hst, _, hco, hxn, _⟩ := domainStep_dot_some s hs hp
  rw [h] at h2
  cases h2
  exact ⟨hst, hco, hxn⟩

theorem domainScan_track : ∀ (bs : GoString) (s s' : DomainState),
    domainScan s bs = some s' → s'.st = 2 →
    (s.st = 2 → ∀ l ls, labels bs = l :: ls →
      (ls = [] → s'.charOnly = (s.charOnly && l.all isLetter) ∧ s'.xn = xnRun s.xn l) ∧
      (ls ≠ [] → FinalTrack s' (ls.getLastD []))) ∧
    (s.st = 0 → s.charOnly = true → s.xn = 0 → FinalTrack s' ((labels bs).getLastD [])) := by
  intro bs
  induction bs with
  | nil =>
    intro s s' h h2
    simp only [domainScan, Option.some.injEq] at h
    subst h
    refine ⟨fun _ l ls hl => ?_, fun h0 => ?_⟩
    · simp only [labels, List.cons.injEq] at hl
      obtain ⟨rfl, rfl⟩ := hl
      exact ⟨fun _ => by simp [xnRun], fun hne => absurd rfl hne⟩
    · rw [h0] at h2; cases h2
  | cons c cs ih =>
    intro s s' h h2
    rw [domainScan] at h
    cases hstep : domainStep s c with
    | none => rw [hstep] at h; cases h
    | some s1 =>
      rw [hstep] at h
      simp only at h
      have ih1 := ih s1 s' h h2
      obtain ⟨l0, ls0, hl0⟩ := labels_exists cs
      refine ⟨fun hs2 l ls hl => ?_, fun h0 hco hxn => ?_⟩
      · by_cases hdot : c = 46
        · subst hdot
          rw [labels_cons_dot] at hl
          simp only [List.cons.injEq] at hl
          obtain ⟨rfl, rfl⟩ := hl
          obtain ⟨hst, hco1, hxn1⟩ := domainStep_dot_inv s s1 hs2 hstep
          exact ⟨fun hnil => absurd hnil (labels_ne_nil cs), fun _ => ih1.2 hst hco1 hxn1⟩
        · rw [labels_cons_of_ne c cs l0 ls0 hdot hl0] at hl
          simp only [List.cons.injEq] at hl
          obtain ⟨rfl, rfl⟩ := hl
          obtain ⟨hst, hco1, hxn1⟩ := domainStep_char_inv s s1 c hs2 hdot hstep
          obtain ⟨hfin, hmore⟩ := ih1.1 hst l0 ls0 hl0
          refine ⟨fun hnil => ?_, hmore⟩
          obtain ⟨ha, hb⟩ := hfin hnil
          rw [ha, hb, hco1, hxn1]
          simp [xnRun, Bool.and_assoc]
      · obtain ⟨hlc, _⟩ := domainStep_start s s1 c h0 hstep
        have hdot := isLabelChar_ne_dot c hlc
        obtain ⟨hst, hco1, hxn1⟩ := domainStep_start_inv s s1 c h0 hstep
        rw [labels_cons_of_ne c cs l0 ls0 hdot hl0]
        obtain ⟨hfin, hmore⟩ := ih1.1 hst l0 ls0 hl0
        cases ls0 with
        | nil =>
          obtain ⟨ha, hb⟩ := hfin rfl
          refine ⟨c, l0, by simp, ?_, ?_⟩
          · rw [ha, hco1, hco]; simp
          · rw [hb, hxn1, hxn]
        | cons l' lt =>
          have := hmore (by simp)
          simpa using this

theorem xnRun_zero (l : GoString) : xnRun 0 l = 0 := by
  induction l with
  | nil => rfl
  | cons c cs ih =>
    have h : xnNext 0 c = 0 := by simp [xnNext]
    simpa [xnRun, h] using ih

theorem xnRun_one_ge (l : GoString) (h : 8 ≤ xnRun 1 l) :
    [110, 45, 45].isPrefixOf l = true ∧ 7 ≤ l.length := by
  match l, h with
  | [], h => simp [xnRun] at h
  | [a], h =>
    simp only [xnRun, List.foldl_cons, List.foldl_nil, xnNext, xnMarker] at h
    split_ifs at h <;> simp at h
  | [a, b], h =>
    exfalso
    simp only [xnRun, List.foldl_cons, List.foldl_nil, xnNext, xnMarker] at h
    split_ifs at h <;> simp_all
  | a :: b :: c :: rest, h =>
    by_cases ha : a = 110
    · by_cases hb : b = 45
      · by_cases hc : c = 45
        · subst ha hb hc
          have hrun : xnRun 1 (110 :: 45 :: 45 :: rest) = xnRun 4 rest := by
            simp [xnRun, xnNext, xnMarker]
          rw [hrun, xnRun_of_four_le rest 4 (Nat.le_refl 4)] at h
          refine ⟨by simp [List.isPrefixOf], ?_⟩
          simp only [List.length_cons]
          omega
        · exfalso
          subst ha hb
          have hrun : xnRun 1 (110 :: 45 :: c :: rest) = xnRun 0 rest := by
            simp [xnRun, xnNext, xnMarker, hc]
          rw [hrun, xnRun_zero] at h
          omega
      · exfalso
        subst ha
        have hrun : xnRun 1 (110 :: b :: c :: rest) = xnRun 0 (c :: rest) := by
          simp [xnRun, xnNext, xnMarker, hb]
        rw [hrun, xnRun_zero] at h
        omega
    · exfalso
      have hrun : xnRun 1 (a :: b :: c :: rest) = xnRun 0 (b :: c :: rest) := by
        simp [xnRun, xnNext, xnMarker, ha]
      rw [hrun, xnRun_zero] at h
      omega

/-- What the scan enforces on the final label of an accepted name: it consists
of letters only, or begins with `'x'` or `'X'` followed by `"n--"` and has at
least 8 bytes. The bytes after the marker are counted and never tested. -/
theorem IsDomainName_final_label (name : GoString) (h : IsDomainName name = true) :
    tldAccepted ((labels name).getLastD []) = true := by
  unfold IsDomainName at h
  split_ifs at h with hlen
  cases hscan : domainScan domainInit name with
  | none => rw [hscan] at h; cases h
  | some s' =>
    rw [hscan] at h
    simp only [domainFinal] at h
    split_ifs at h with hfin
    simp only [not_or, not_and, not_lt, Bool.not_eq_true', Decidable.not_not] at hfin
    obtain ⟨hst, _, _, hx⟩ := hfin
    obtain ⟨c, l0, ht, hco, hxn⟩ := (domainScan_track name domainInit s' hscan hst).2 rfl rfl rfl
    rw [ht]
    simp only [tldAccepted, Bool.or_eq_true, Bool.and_eq_true, decide_eq_true_eq]
    cases hc : s'.charOnly with
    | true =>
      left
      rw [hc] at hco
      simpa using hco.symm
    | false =>
      right
      have h8 := hx hc
      rw [hxn] at h8
      by_cases hxx : c = 120 ∨ c = 88
      · rw [if_pos hxx] at h8
        obtain ⟨hp, hl⟩ := xnRun_one_ge l0 h8
        refine ⟨⟨?_, by simpa using hp⟩, by simp only [List.length_cons]; omega⟩
        rcases hxx with rfl | rfl <;> simp
      · rw [if_neg hxx, xnRun_zero] at h8
        omega


/-! ### Concrete names -/

/-- C5: `IsDomainName` accepts "example.com", "sub.example.co.uk" and
"xn--d1acufc.xn--p1ai", and rejects "localhost", "-bad.com", 64 times `'a'`
followed by ".com", "exa_mple.com" and "foo.c1". -/
theorem IsDomainName_examples :
    IsDomainName (str "example.com") = true ∧
      IsDomainName (str "sub.example.co.uk") = true ∧
      IsDomainName (str "xn--d1acufc.xn--p1ai") = true ∧
      IsDomainName (str "localhost") = false ∧
      IsDomainName (str "-bad.com") = false ∧
      IsDomainName (List.replicate 64 97 ++ str ".com") = false ∧
      IsDomainName (str "exa_mple.com") = false ∧
      IsDomainName (str "foo.c1") = false := by
  decide

/-- C6 at the name "example.com". -/
theorem IsDomainName_accepts_only_wellformed_witness :
    IsDomainName (str "example.com") = true ∧
      ((str "example.com").length ≤ 253 ∧ 2 ≤ (labels (str "example.com")).length ∧
        ∀ l ∈ labels (str "example.com"),
          1 ≤ l.length ∧ l.length ≤ 63 ∧ ∀ c ∈ l, isLabelChar c = true) :=
  ⟨by decide, IsDomainName_accepts_only_wellformed (str "example.com") (by decide)⟩

/-- C7 (fails on the code): the name "a.xn--abc-" is accepted although its
final label "xn--abc-" ends with `'-'`. -/
theorem IsDomainName_accepts_trailing_hyphen :
    IsDomainName (str "a.xn--abc-") = true ∧
      labels (str "a.xn--abc-") = [str "a", str "xn--abc-"] ∧
      (str "xn--abc-").getLast? = some 45 := by
  decide

/-- C8 (fails on the code): the names "example.xn--ab-cd" and "a.xn------" are
accepted although their final labels "xn--ab-cd" and "xn------" are not
letters only and have the byte `'-'` after the marker `"xn--"`, which is not
alphanumeric. -/
theorem IsDomainName_accepts_malformed_tld :
    IsDomainName (str "example.xn--ab-cd") = true ∧
      (labels (str "example.xn--ab-cd")).getLastD [] = str "xn--ab-cd" ∧
      (str "xn--ab-cd").all isLetter = false ∧
      xnMarker.isPrefixOf (str "xn--ab-cd") = true ∧
      ((str "xn--ab-cd").drop 4).all isAlnum = false ∧
      tldWellFormed (str "xn--ab-cd") = false ∧
      IsDomainName (str "a.xn------") = true ∧
      tldWellFormed ((labels (str "a.xn------")).getLastD []) = false := by
  decide

/-- The final label of the accepted name "example.com". -/
theorem IsDomainName_final_label_witness :
    IsDomainName (str "example.com") = true ∧
      tldAccepted ((labels (str "example.com")).getLastD []) = true :=
  ⟨by decide, IsDomainName_final_label (str "example.com") (by decide)⟩

/-- C9 (as stated, fails on the code): the name "a.b" meets every listed rule
and is rejected. -/
theorem IsDomainName_rejects_short_tld :
    DomainRules (str "a.b") ∧ IsDomainName (str "a.b") = false := by
  decide

/-- C9 (amended) at the name "example.com". -/
theorem IsDomainName_accepts_rules_witness :
    (DomainRules (str "example.com") ∧
        2 ≤ ((labels (str "example.com")).getLastD []).length) ∧
      IsDomainName (str "example.com") = true :=
  ⟨by decide, IsDomainName_accepts_rules (str "example.com") (by decide) (by decide)⟩

/-! ### IPParser -/

/-- C10 (fails on the code): for the IPv4 literal "192.168.0.100", which
`net.ParseIP` accepts, `IPParser` builds the text "192.168.0.100::/64", which
`net.ParseCIDR` rejects, and returns a nil slice with that error; `NewIPRule`
then returns no rule and the error. -/
theorem IPParser_rejects_ipv4_literal (v6 : IPv6Text) (fuel : Nat) :
    ParseIP v6 (str "192.168.0.100") = some (.v4 (ipv4 192 168 0 100)) ∧
      ParseCIDR v6 (str "192.168.0.100::/64") = none ∧
      IPParser v6 fuel (str "192.168.0.100") = .ret (none, some "invalid CIDR address") ∧
      NewIPRule v6 fuel (str "192.168.0.100") 1 = .ret (none, some "invalid CIDR address") :=
  ⟨rfl, rfl, rfl, rfl⟩


/-! ## Theorems: ExtractHostname -/

theorem indexPair_lt (a b : Nat) : ∀ (url : GoString) (i : Nat),
    indexPair a b url = some i → i + 2 ≤ url.length := by
  intro url
  induction url with
  | nil => intro i h; simp [indexPair] at h
  | cons c cs ih =>
    intro i h
    cases cs with
    | nil => simp [indexPair] at h
    | cons d rest =>
      rw [indexPair] at h
      split_ifs at h with hc
      · cases h
        simp
      · cases hr : indexPair a b (d :: rest) with
        | none => rw [hr] at h; cases h
        | some j =>
          rw [hr] at h
          cases h
          have := ih j hr
          simp only [List.length_cons] at this ⊢
          omega

theorem indexByte_lt (b : Nat) : ∀ (url : GoString) (i : Nat),
    indexByte b url = some i → i < url.length := by
  intro url
  induction url with
  | nil => intro i h; simp [indexByte] at h
  | cons c cs ih =>
    intro i h
    rw [indexByte] at h
    split_ifs at h with hc
    · cases h
      simp
    · cases hr : indexByte b cs with
      | none => rw [hr] at h; cases h
      | some j =>
        rw [hr] at h
        cases h
        have := ih j hr
        simp only [List.length_cons]
        omega

theorem hostScan_of_nonneg (url : GoString) : ∀ (n : Nat) (i : Int), 0 ≤ i →
    i + n ≤ url.length → ∃ j : Int, hostScan url n i = .ret j ∧ (j = 0 ∨ (i ≤ j ∧ j < url.length)) := by
  intro n
  induction n with
  | zero => intro i _ _; exact ⟨0, rfl, Or.inl rfl⟩
  | succ n ih =>
    intro i h0 hlen
    rw [hostScan, if_neg (by omega)]
    have hlt : i.toNat < url.length := by omega
    rw [List.getElem?_eq_getElem hlt]
    simp only
    split_ifs with hc
    · exact ⟨i, rfl, Or.inr ⟨Int.le_refl _, by omega⟩⟩
    · obtain ⟨j, hj, hjr⟩ := ih (i + 1) (by omega) (by push_cast at hlen ⊢; omega)
      refine ⟨j, hj, ?_⟩
      rcases hjr with h | ⟨h1, h2⟩
      · exact Or.inl h
      · exact Or.inr ⟨by omega, h2⟩

theorem extractFrom_of_nonneg (url : GoString) (firstIdx : Int) (h0 : 0 ≤ firstIdx)
    (hlen : firstIdx ≤ url.length) : ∃ s, extractFrom url firstIdx = .ret s := by
  obtain ⟨j, hj, hjr⟩ := hostScan_of_nonneg url ((url.length : Int) - firstIdx).toNat firstIdx h0
    (by omega)
  unfold extractFrom
  rw [hj]
  simp only
  split_ifs with h1 h2 h2
  · exact ⟨[], rfl⟩
  · unfold goSlice
    rw [if_pos ⟨h0, by omega, Int.le_refl _⟩]
    exact ⟨_, rfl⟩
  · exact ⟨[], rfl⟩
  · unfold goSlice
    rw [if_pos ⟨h0, by omega, by omega⟩]
    exact ⟨_, rfl⟩

theorem extractFrom_neg (url : GoString) (firstIdx : Int) (h : firstIdx < 0) :
    extractFrom url firstIdx = .panicked := by
  unfold extractFrom
  have hn : ((url.length : Int) - firstIdx).toNat = ((url.length : Int) - firstIdx).toNat - 1 + 1 := by
    omega
  rw [hn, hostScan, if_pos h]

/-- `ExtractHostname` panics exactly for the texts without `"//"` whose first
byte is `':'`; for every other text it returns. -/
theorem ExtractHostname_panics_iff (url : GoString) :
    (ExtractHostname url = .panicked ↔ indexPair 47 47 url = none ∧ indexByte 58 url = some 0) ∧
      (ExtractHostname url ≠ .panicked → ∃ s, ExtractHostname url = .ret s) := by
  unfold ExtractHostname
  by_cases hnil : url = []
  · subst hnil
    simp [indexPair, indexByte]
  · rw [if_neg hnil]
    cases hp : indexPair 47 47 url with
    | some i =>
      have hi := indexPair_lt 47 47 url i hp
      obtain ⟨s, hs⟩ := extractFrom_of_nonneg url ((i : Int) + 2) (by omega) (by omega)
      simp only [goIndex]
      rw [if_neg (by omega), hs]
      simp
    | none =>
      simp only [goIndex, if_true]
      cases hb : indexByte 58 url with
      | none => simp
      | some i =>
        have hi := indexByte_lt 58 url i hb
        simp only [true_and, Option.some.injEq]
        rw [if_neg (by omega)]
        by_cases h0 : i = 0
        · subst h0
          rw [extractFrom_neg url _ (by norm_num)]
          simp
        · obtain ⟨s, hs⟩ := extractFrom_of_nonneg url ((i : Int) - 1) (by omega) (by omega)
          rw [hs]
          simp [h0]

/-- C20 (fails on the code): for the text ":x" there is no "//", the first
`':'` is at index 0, `firstIdx` becomes -1 and the first pass of the loop
evaluates `url[-1]`, which panics. -/
theorem ExtractHostname_panics_on_leading_colon :
    ExtractHostname (str ":x") = .panicked ∧
      indexPair 47 47 (str ":x") = none ∧ goIndex (indexByte 58 (str ":x")) - 1 = -1 ∧
      hostScan (str ":x") 3 (-1) = .panicked := by
  decide

/-! ## Theorems: IPParser on patterns that are no address literal -/

theorem splitAnnotated_length (p : GoString) : (splitAnnotated p).length ≠ 3 := by
  unfold splitAnnotated
  split_ifs <;> simp

theorem splitRange_pieces (v6 : IPv6Text) (p : GoString) (h : (splitRange p).length = 2) :
    ParseIP v6 ((splitRange p).getD 0 []) = none := by
  unfold splitRange at h ⊢
  split_ifs at h ⊢
  · simp at h
  · rfl
  · simp at h

/-- What `IPParser` does with a pattern that `net.ParseIP` rejects: it panics
when `net.ParseCIDR` rejects the pattern too, and returns the error of line
151 when `net.ParseCIDR` accepts it. No such pattern reaches the converter. -/
theorem IPParser_of_not_literal (v6 : IPv6Text) (fuel : Nat) (p : GoString)
    (h : ParseIP v6 p = none) :
    IPParser v6 fuel p =
      match ParseCIDR v6 p with
      | none => .panicked
      | some _ => .ret (none, some "unable to parser, not matches found") := by
  unfold IPParser
  rw [h]
  cases hc : ParseCIDR v6 p with
  | none => rfl
  | some n =>
    simp only
    have h3 : ((splitAnnotated p).length == 3) = false := by
      simpa using splitAnnotated_length p
    rw [h3]
    simp only [Bool.false_and]
    by_cases h2 : (splitRange p).length = 2
    · rw [splitRange_pieces v6 p h2]
      simp [isIPv4]
    · have h2' : ((splitRange p).length == 2) = false := by simpa using h2
      rw [h2']
      simp only [Bool.false_and]

theorem NewIPRule_of_not_literal (v6 : IPv6Text) (fuel : Nat) (p : GoString) (id : Int)
    (h : ParseIP v6 p = none) :
    NewIPRule v6 fuel p id =
      match ParseCIDR v6 p with
      | none => .panicked
      | some _ => .ret (none, some "unable to parser, not matches found") := by
  unfold NewIPRule
  rw [IPParser_of_not_literal v6 fuel p h]
  cases ParseCIDR v6 p <;> rfl

theorem parseIPv4_dotted_then (a : Nat) (c : Nat) (rest : GoString)
    (hc : ¬(48 ≤ c ∧ c ≤ 57)) (hd : c ≠ 46) : parseIPv4 (dotted a ++ c :: rest) = none := by
  have h3 : a / 2 ^ 24 % 256 < 256 := Nat.mod_lt _ (by norm_num)
  have h2 : a / 2 ^ 16 % 256 < 256 := Nat.mod_lt _ (by norm_num)
  have h1 : a / 2 ^ 8 % 256 < 256 := Nat.mod_lt _ (by norm_num)
  have h0 : a % 256 < 256 := Nat.mod_lt _ (by norm_num)
  unfold parseIPv4 dotted
  simp only [List.append_assoc, List.singleton_append, List.cons_append, List.nil_append]
  rw [parseIPv4Fields_uitoa _ h3, parseIPv4Fields_dot _ _ _ _ _ (by simp [uitoa_ne_nil]) (by omega),
    parseIPv4Fields_uitoa _ h2, parseIPv4Fields_dot _ _ _ _ _ (by simp [uitoa_ne_nil]) (by omega),
    parseIPv4Fields_uitoa _ h1, parseIPv4Fields_dot _ _ _ _ _ (by simp [uitoa_ne_nil]) (by omega),
    parseIPv4Fields_uitoa _ h0, parseIPv4Fields, if_neg hc, if_neg hd]

theorem ParseIP_dotted_then (v6 : IPv6Text) (a : Nat) (c : Nat) (rest : GoString)
    (hc : ¬(48 ≤ c ∧ c ≤ 57)) (hd : c ≠ 46) : ParseIP v6 (dotted a ++ c :: rest) = none := by
  have h3 : a / 2 ^ 24 % 256 < 256 := Nat.mod_lt _ (by norm_num)
  unfold ParseIP ParseAddr
  have hs : dotted a ++ c :: rest = uitoa (a / 2 ^ 24 % 256) ++ 46 :: (uitoa (a / 2 ^ 16 % 256) ++
      [46] ++ uitoa (a / 2 ^ 8 % 256) ++ [46] ++ uitoa (a % 256) ++ c :: rest) := by
    unfold dotted
    simp only [List.append_assoc, List.singleton_append, List.cons_append, List.nil_append]
  have := parseAddrFrom_digits v6 (dotted a ++ c :: rest) (uitoa (a / 2 ^ 16 % 256) ++ [46] ++
      uitoa (a / 2 ^ 8 % 256) ++ [46] ++ uitoa (a % 256) ++ c :: rest) (uitoa (a / 2 ^ 24 % 256))
      (uitoa_digits _ h3)
  rw [← hs] at this
  rw [this, parseIPv4_dotted_then a c rest hc hd]
  rfl

theorem cut_none (sep : Nat) : ∀ (x : GoString), (∀ c ∈ x, c ≠ sep) → cut sep x = none := by
  intro x
  induction x with
  | nil => intro _; rfl
  | cons c cs ih =>
    intro h
    rw [cut, if_neg (h c (List.mem_cons_self _ _)),
      ih (fun z hz => h z (List.mem_cons_of_mem _ hz))]
    rfl

/-- Every pattern `start-end` of two dotted-quad texts makes `IPParser` panic,
whatever the two addresses are. -/
theorem IPParser_range_panics (v6 : IPv6Text) (fuel a b : Nat) :
    IPParser v6 fuel (dotted a ++ str "-" ++ dotted b) = .panicked := by
  have hstr : str "-" = [45] := by decide
  rw [hstr, List.append_assoc, List.singleton_append,
    IPParser_of_not_literal v6 fuel _ (ParseIP_dotted_then v6 a 45 _ (by omega) (by omega))]
  have hcut : cut 47 (dotted a ++ 45 :: dotted b) = none := by
    apply cut_none
    intro c hc
    rw [List.mem_append, List.mem_cons] at hc
    rcases hc with h | h | h
    · exact dotted_no_slash a c h
    · omega
    · exact dotted_no_slash b c h
  unfold ParseCIDR
  rw [hcut]

/-- Every pattern `addr/prefix` of a dotted-quad text and a prefix length up
to 32 makes `IPParser` return a nil slice and the error of line 151. -/
theorem IPParser_cidr4 (v6 : IPv6Text) (fuel a m : Nat) (ha : a < 2 ^ 32) (hm : m ≤ 32) :
    IPParser v6 fuel (LongToIPv4 a ++ str "/" ++ Itoa (m : Int)) =
      .ret (none, some "unable to parser, not matches found") := by
  have hp : ParseIP v6 (LongToIPv4 a ++ str "/" ++ Itoa (m : Int)) = none := by
    have hstr : str "/" = [47] := by decide
    unfold LongToIPv4
    rw [hstr, List.append_assoc, List.singleton_append]
    exact ParseIP_dotted_then v6 a 47 _ (by omega) (by omega)
  rw [IPParser_of_not_literal v6 fuel _ hp, ParseCIDR_LongToIPv4 v6 a m ha hm,
    parseCIDR4_of_le a m hm]

/-- C11 (fails on the code): "192.168.0.1/32" is no address literal and
`net.ParseCIDR` accepts it as the network 192.168.0.1/32, yet `IPParser`
returns a nil slice and the error "unable to parser, not matches found", and
`NewIPRule` returns no rule and that error. -/
theorem IPParser_rejects_cidr (v6 : IPv6Text) (fuel : Nat) :
    ParseIP v6 (str "192.168.0.1/32") = none ∧
      ParseCIDR v6 (str "192.168.0.1/32") =
        some { IP := ipv4 192 168 0 1, Mask := CIDRMask 32 32, bits := 32 } ∧
      IPParser v6 fuel (str "192.168.0.1/32") =
        .ret (none, some "unable to parser, not matches found") ∧
      NewIPRule v6 fuel (str "192.168.0.1/32") 1 =
        .ret (none, some "unable to parser, not matches found") :=
  ⟨rfl, rfl, rfl, rfl⟩

/-- C12 (fails on the code): the patterns "10.0.1.100-10.0.1.120" and
"site:10.0.1.100-10.0.1.120" are no address literals (the second one when the
IPv6 parser of the library rejects it, as it does) and `net.ParseCIDR` rejects
both, so `IPParser` panics on each; `IPv4RangeToCIDR` returns for the two
addresses. -/
theorem IPParser_panics_on_ranges (v6 : IPv6Text) (fuel : Nat)
    (h : v6.parse (str "site:10.0.1.100-10.0.1.120") = none) :
    IPParser v6 fuel (str "10.0.1.100-10.0.1.120") = .panicked ∧
      IPParser v6 fuel (str "site:10.0.1.100-10.0.1.120") = .panicked ∧
      splitAnnotated (str "site:10.0.1.100-10.0.1.120") = [[], []] ∧
      IPv4RangeToCIDR 64 (.v4 (ipv4 10 0 1 100)) (.v4 (ipv4 10 0 1 120)) =
        .ret ([blockAt (ipv4 10 0 1 100) 2, blockAt (ipv4 10 0 1 104) 3,
          blockAt (ipv4 10 0 1 112) 3], none) := by
  refine ⟨rfl, ?_, by decide, ?_⟩
  · have hp : ParseIP v6 (str "site:10.0.1.100-10.0.1.120") = none := by
      have : ParseAddr v6 (str "site:10.0.1.100-10.0.1.120") =
          (v6.parse (str "site:10.0.1.100-10.0.1.120")).map Addr.a6 := rfl
      unfold ParseIP
      rw [this, h]
      rfl
    rw [IPParser_of_not_literal v6 fuel _ hp]
    rfl
  · decide!

/-- C12 with an IPv6 parser that accepts no text. -/
theorem IPParser_panics_on_ranges_witness :
    IPParser ⟨fun _ => none, fun _ => []⟩ 64 (str "10.0.1.100-10.0.1.120") = .panicked ∧
      IPParser ⟨fun _ => none, fun _ => []⟩ 64 (str "site:10.0.1.100-10.0.1.120") = .panicked ∧
      splitAnnotated (str "site:10.0.1.100-10.0.1.120") = [[], []] ∧
      IPv4RangeToCIDR 64 (.v4 (ipv4 10 0 1 100)) (.v4 (ipv4 10 0 1 120)) =
        .ret ([blockAt (ipv4 10 0 1 100) 2, blockAt (ipv4 10 0 1 104) 3,
          blockAt (ipv4 10 0 1 112) 3], none) :=
  IPParser_panics_on_ranges ⟨fun _ => none, fun _ => []⟩ 64 rfl

/-- C13 (fails on the code): on the pattern "foo", which is none of the four
forms, on the range "10.0.1.x-10.0.1.120" with an address that does not
parse, and on the range "10.0.1.120-10.0.1.100" with start > end, `IPParser`
panics on the nil `*IPNet` of line 124, and `NewIPRule` with it. -/
theorem IPParser_panics_on_unparsable (v6 : IPv6Text) (fuel : Nat) :
    IPParser v6 fuel (str "foo") = .panicked ∧
      NewIPRule v6 fuel (str "foo") 1 = .panicked ∧
      IPParser v6 fuel (str "10.0.1.x-10.0.1.120") = .panicked ∧
      NewIPRule v6 fuel (str "10.0.1.x-10.0.1.120") 1 = .panicked ∧
      IPParser v6 fuel (str "10.0.1.120-10.0.1.100") = .panicked ∧
      NewIPRule v6 fuel (str "10.0.1.120-10.0.1.100") 1 = .panicked :=
  ⟨rfl, rfl, rfl, rfl, rfl, rfl⟩

/-! ## Theorems: IPEngine -/

theorem mapLookup_mapStore_same {α : Type} (k : Int) (v : α) : ∀ (m : List (Int × α)),
    mapLookup k (mapStore k v m) = some v := by
  intro m
  induction m with
  | nil => simp [mapStore, mapLookup]
  | cons p rest ih =>
    obtain ⟨k', v'⟩ := p
    by_cases h : k' = k
    · simp [mapStore, mapLookup, h]
    · simp [mapStore, mapLookup, h, ih]

theorem mapLookup_mapStore_ne {α : Type} (k k0 : Int) (v : α) (hk : k0 ≠ k) :
    ∀ (m : List (Int × α)), mapLookup k0 (mapStore k v m) = mapLookup k0 m := by
  intro m
  induction m with
  | nil => simp [mapStore, mapLookup, Ne.symm hk]
  | cons p rest ih =>
    obtain ⟨k', v'⟩ := p
    by_cases h : k' = k
    · subst h
      simp [mapStore, mapLookup, Ne.symm hk]
    · by_cases h0 : k' = k0
      · subst h0
        simp [mapStore, mapLookup, hk]
      · simp [mapStore, mapLookup, h, h0, ih]

theorem insertAll_spec (k : Int) : ∀ (ns : List IPNet) (m : List (Int × IPFilterRanger))
    (fr : IPFilterRanger) (inserted : List IPNet), mapLookup k m = some fr →
    fr.ranger = some inserted →
    ∃ m2, insertAll k ns m = .ret m2 ∧
      mapLookup k m2 = some { fr with ranger := some (inserted ++ ns) } ∧
      ∀ k0, k0 ≠ k → mapLookup k0 m2 = mapLookup k0 m := by
  intro ns
  induction ns with
  | nil =>
    intro m fr inserted h hr
    refine ⟨m, rfl, ?_, fun _ _ => rfl⟩
    rw [h, List.append_nil, ← hr]
  | cons n ns ih =>
    intro m fr inserted h hr
    obtain ⟨m2, h1, h2, h3⟩ := ih (mapStore k { fr with ranger := some (inserted ++ [n]) } m)
      { fr with ranger := some (inserted ++ [n]) } (inserted ++ [n])
      (mapLookup_mapStore_same k _ m) rfl
    refine ⟨m2, ?_, ?_, ?_⟩
    · rw [insertAll, h]
      simp only [hr]
      exact h1
    · rw [h2]
      simp
    · intro k0 hk0
      rw [h3 k0 hk0, mapLookup_mapStore_ne k k0 _ hk0]

/-- What `AddRule` does on an engine whose map is initialised and holds no nil
ranger under the list of the rule: it returns, the ranger under the list of
the rule has received every block of the rule, a ranger created by the call
has `listID` 0, the rangers under all other keys are as before and
`RulesCount` is one greater. -/
theorem AddRule_of_map (e : IPEngine) (r : IPRule) (m : List (Int × IPFilterRanger))
    (h : e.IPRangers = some m)
    (hr : ∀ fr, mapLookup r.FilterListID m = some fr → fr.ranger ≠ none) :
    ∃ m2, e.AddRule r = .ret { e with RulesCount := e.RulesCount + 1, IPRangers := some m2 } ∧
      mapLookup r.FilterListID m2 =
        some { (mapLookup r.FilterListID m).getD { listID := 0, hash := [], ranger := some [] } with
          ranger := some ((((mapLookup r.FilterListID m).getD
            { listID := 0, hash := [], ranger := some [] }).ranger).getD [] ++ r.IPNet) } ∧
      ∀ k0, k0 ≠ r.FilterListID → mapLookup k0 m2 = mapLookup k0 m := by
  unfold IPEngine.AddRule
  rw [h]
  simp only
  cases hl : mapLookup r.FilterListID m with
  | some fr =>
    cases hfr : fr.ranger with
    | none => exact absurd hfr (hr fr hl)
    | some inserted =>
      obtain ⟨m2, h1, h2, h3⟩ := insertAll_spec r.FilterListID r.IPNet m fr inserted hl hfr
      refine ⟨m2, ?_, ?_, h3⟩
      · simp [h1]
      · simpa [hfr] using h2
  | none =>
    obtain ⟨m2, h1, h2, h3⟩ := insertAll_spec r.FilterListID r.IPNet
      (mapStore r.FilterListID { listID := 0, hash := [], ranger := some [] } m) _ []
      (mapLookup_mapStore_same _ _ m) rfl
    refine ⟨m2, ?_, ?_, ?_⟩
    · simp [h1]
    · simpa using h2
    · intro k0 hk0
      rw [h3 k0 hk0, mapLookup_mapStore_ne _ k0 _ hk0]

/-- On an entry with a nil ranger under the list of the rule, `AddRule` panics
at line 73 as soon as the rule has a block. -/
theorem AddRule_nil_ranger (e : IPEngine) (r : IPRule) (m : List (Int × IPFilterRanger))
    (fr : IPFilterRanger) (n : IPNet) (ns : List IPNet) (h : e.IPRangers = some m)
    (hl : mapLookup r.FilterListID m = some fr) (hr : fr.ranger = none)
    (hn : r.IPNet = n :: ns) : e.AddRule r = .panicked := by
  unfold IPEngine.AddRule
  rw [h]
  simp only [hl, Option.isSome_some, if_true, hn]
  rw [insertAll, hl]
  simp only [hr]

/-- C14 (fails on the code): `IPEngine.Match` reports found = true for every
engine state and every address string: for the engine without rules that
`NewDNSEngine` creates, for an engine with an initialised empty map, and for
the address 192.168.1.1 on an engine whose only block is 10.0.0.0/8. -/
theorem IPEngine_Match_always_found (e : IPEngine) (first : Nat) (hostname : GoString) :
    (e.Match first hostname).2 = true ∧
      IPEngine.zero.Match first hostname = (IPRule.zero, true) ∧
      engineWithMap.Match first hostname = (IPRule.zero, true) ∧
      net10.Contains4 (ipv4 192 168 1 1) = false ∧
      (engineAfterRule7.Match first (str "192.168.1.1")).2 = true := by
  refine ⟨?_, rfl, rfl, by decide, rfl⟩
  unfold IPEngine.Match
  cases e.IPRangers with
  | none => rfl
  | some m => cases m <;> rfl

/-- C15 (fails on the code): after `AddRule` of a rule of filter list 7 on an
engine with an initialised empty map, the ranger stored under key 7 has
`listID` 0, and `Match` reports filter list 0, which is no key of `IPRangers`;
on an engine without any ranger `Match` reports filter list 0 as well. -/
theorem IPEngine_Match_reports_list_zero (first : Nat) (hostname : GoString) :
    engineWithMap.AddRule rule7 = .ret engineAfterRule7 ∧
      engineAfterRule7.Match first hostname =
        ({ RuleText := [], FilterListID := 0, IPNet := [] }, true) ∧
      (engineAfterRule7.IPRangers.getD []).map Prod.fst = [7] ∧
      (engineWithMap.Match first hostname).1.FilterListID = 0 := by
  refine ⟨by decide, ?_, rfl, rfl⟩
  have h : first % (([] : List (Int × IPFilterRanger)).length + 1) = 0 := Nat.mod_one first
  unfold IPEngine.Match engineAfterRule7
  simp only [h]
  rfl

theorem buildLoop_panics {NE NR : Type} (x : Deps NE NR) (r : IPRule) (idx : Int)
    (post : List (Rule NR × Int)) : ∀ (pre : List (Rule NR × Int)) (d : DNSEngine NE NR),
    d.IPEngine.IPRangers = none → buildLoop x (pre ++ (.ip r, idx) :: post) d = .panicked := by
  intro pre
  induction pre with
  | nil =>
    intro d h
    rw [List.nil_append, buildLoop]
    unfold IPEngine.AddRule
    rw [h]
  | cons p pre ih =>
    intro d h
    obtain ⟨f, i⟩ := p
    rw [List.cons_append]
    cases f with
    | ip ipRule =>
      rw [buildLoop]
      unfold IPEngine.AddRule
      rw [h]
    | host hostRule =>
      rw [buildLoop]
      exact ih _ h
    | network networkRule =>
      rw [buildLoop]
      split_ifs
      · exact ih _ h
      · exact ih _ h
    | other =>
      rw [buildLoop]
      exact ih _ h

/-- C16 (fails on the code): on the zero value of `IPEngine` that `NewDNSEngine`
creates, whose map is nil, `AddRule` panics for every rule, and `NewDNSEngine`
panics for every storage whose scanner yields an IP rule. -/
theorem AddRule_panics_on_zero_engine {NE NR : Type} (x : Deps NE NR) (r : IPRule)
    (pre post : List (Rule NR × Int)) (idx : Int) (retrieve : Int → Option HostRule) :
    IPEngine.zero.AddRule r = .panicked ∧
      IPEngine.zero.AddRule rule7 = .panicked ∧
      NewDNSEngine x { rules := pre ++ (.ip r, idx) :: post, RetrieveHostRule := retrieve } =
        .panicked := by
  refine ⟨rfl, rfl, ?_⟩
  unfold NewDNSEngine
  simp only
  rw [buildLoop_panics x r idx post pre _ rfl]

/-! ## Theorems: DNSEngine -/

theorem matchLoop_eq {NE NR : Type} (x : Deps NE NR) (s : RuleStorage NR) (hostname : GoString) :
    ∀ (idxs : List Int) (acc : List HostRule),
    matchLoop x s hostname idxs acc =
      acc ++ idxs.filterMap fun idx =>
        (s.RetrieveHostRule idx).filter fun rule => x.hostRuleMatch rule hostname := by
  intro idxs
  induction idxs with
  | nil => intro acc; simp [matchLoop]
  | cons idx rest ih =>
    intro acc
    rw [matchLoop]
    cases hr : s.RetrieveHostRule idx with
    | none => simp [ih, hr, Option.filter]
    | some rule =>
      by_cases hm : x.hostRuleMatch rule hostname = true
      · simp [ih, hr, hm, Option.filter]
      · simp [ih, hr, hm, Option.filter]

theorem partitionLoop_eq {NR : Type} : ∀ (rr : List HostRule) (res : DNSResult NR),
    partitionLoop rr res =
      { res with
        HostRulesV4 := res.HostRulesV4 ++ rr.filter fun rule => isIPv4 rule.IP
        HostRulesV6 := res.HostRulesV6 ++ rr.filter fun rule => !isIPv4 rule.IP } := by
  intro rr
  induction rr with
  | nil => intro res; simp [partitionLoop]
  | cons hostRule rest ih =>
    intro res
    rw [partitionLoop]
    by_cases h : isIPv4 hostRule.IP = true
    · simp [ih, h]
    · simp [ih, h]

theorem matchLookupTable_eq {NE NR : Type} (x : Deps NE NR) (d : DNSEngine NE NR)
    (hostname : GoString) :
    d.matchLookupTable x hostname =
      (confirmedRules x d hostname, !(confirmedRules x d hostname).isEmpty) := by
  unfold DNSEngine.matchLookupTable confirmedRules
  cases hb : d.lookupTable (x.fastHash hostname) with
  | none => simp [hb]
  | some rulesIndexes =>
    simp only [hb, matchLoop_eq, List.nil_append, Option.getD_some]
    cases List.filterMap (fun idx => Option.filter (fun rule => x.hostRuleMatch rule hostname)
      (d.rulesStorage.RetrieveHostRule idx)) rulesIndexes <;> simp

/-- The answer of `MatchRequest` from the host rule index, reached when the
hostname is not empty, the network engine reports no match and the IP engine
is not asked. -/
theorem MatchRequest_of_no_network {NE NR : Type} (x : Deps NE NR) (d : DNSEngine NE NR)
    (first : Nat) (dReq : DNSRequest) (ha : dReq.Answer = false) (hne : dReq.Hostname ≠ [])
    (hn : (x.networkMatch d.networkEngine
      { Hostname := dReq.Hostname, SortedClientTags := dReq.SortedClientTags,
        ClientIP := dReq.ClientIP, ClientName := dReq.ClientName }).2 = false) :
    d.MatchRequest x first dReq = hostAnswer x d dReq.Hostname := by
  unfold DNSEngine.MatchRequest
  rw [if_neg hne]
  simp only
  rcases hp : x.networkMatch d.networkEngine
      { Hostname := dReq.Hostname, SortedClientTags := dReq.SortedClientTags,
        ClientIP := dReq.ClientIP, ClientName := dReq.ClientName } with ⟨n, b⟩
  rw [hp] at hn
  simp only at hn
  subst hn
  simp only [ha, Bool.false_eq_true, if_false, matchLookupTable_eq]
  unfold hostAnswer
  cases hc : confirmedRules x d dReq.Hostname with
  | nil => rfl
  | cons rule rest =>
    simp only [List.isEmpty_cons, Bool.not_false, partitionLoop_eq]
    simp [DNSResult.empty]

/-- C17: when the network engine matches the request of a non-empty hostname
with rule `n`, `MatchRequest` returns the result with only `NetworkRule` set,
to `n`, and true, whatever the `Answer` flag, the host rule index and the IP
engine are; for an empty hostname every engine gives the empty result and
false. -/
theorem MatchRequest_network_first {NE NR : Type} (x : Deps NE NR) (d : DNSEngine NE NR)
    (first : Nat) (dReq : DNSRequest) (n : Option NR) (hne : dReq.Hostname ≠ [])
    (hn : x.networkMatch d.networkEngine
      { Hostname := dReq.Hostname, SortedClientTags := dReq.SortedClientTags,
        ClientIP := dReq.ClientIP, ClientName := dReq.ClientName } = (n, true)) :
    d.MatchRequest x first dReq =
        ({ NetworkRule := n, HostRulesV4 := [], HostRulesV6 := [], IPRule := none }, true) ∧
      ∀ (x0 : Deps NE NR) (d0 : DNSEngine NE NR) (first0 : Nat),
        d0.MatchRequest x0 first0 { dReq with Hostname := [] } = (DNSResult.empty, false) := by
  constructor
  · unfold DNSEngine.MatchRequest
    rw [if_neg hne]
    simp only
    rw [hn]
  · intro x0 d0 first0
    unfold DNSEngine.MatchRequest
    rw [if_pos rfl]

/-- C17 at the request `requestAds`: it is matched by the network rule of the example
engine, although the host rule index holds a host rule for the hostname and
the request comes from a DNS response. -/
theorem MatchRequest_network_first_witness :
    (exampleEngine.matchLookupTable exampleDeps requestAds.Hostname = ([hostAds], true) ∧
      requestAds.Answer = true) ∧
      (exampleEngine.MatchRequest exampleDeps 0 requestAds =
        ({ NetworkRule := some (str "ads.example.org"), HostRulesV4 := [], HostRulesV6 := [],
           IPRule := none }, true) ∧
      ∀ (x0 : Deps (List GoString) GoString) (d0 : DNSEngine (List GoString) GoString)
        (first0 : Nat),
        d0.MatchRequest x0 first0 { requestAds with Hostname := [] } = (DNSResult.empty, false)) :=
  ⟨⟨by decide, rfl⟩,
    MatchRequest_network_first exampleDeps exampleEngine 0 requestAds (some (str "ads.example.org"))
      (by decide) (by decide)⟩

/-- C18: for a request with `Answer` false and a non-empty hostname that the
network engine does not match, `MatchRequest` returns the answer
`hostAnswer`: the rules retrieved for the indices of the bucket of the
hostname whose `Match(hostname)` is true, in bucket order, those with an IPv4
form in `HostRulesV4` and all others in `HostRulesV6`, no network rule and no
IP rule, and matched exactly when there is such a rule; an absent bucket and
a bucket without a confirmed rule give the empty result and false. -/
theorem MatchRequest_host_rules {NE NR : Type} (x : Deps NE NR) (d : DNSEngine NE NR)
    (first : Nat) (dReq : DNSRequest) (ha : dReq.Answer = false) (hne : dReq.Hostname ≠ [])
    (hn : (x.networkMatch d.networkEngine
      { Hostname := dReq.Hostname, SortedClientTags := dReq.SortedClientTags,
        ClientIP := dReq.ClientIP, ClientName := dReq.ClientName }).2 = false) :
    d.MatchRequest x first dReq = hostAnswer x d dReq.Hostname ∧
      ((d.MatchRequest x first dReq).2 = true ↔ confirmedRules x d dReq.Hostname ≠ []) ∧
      (d.lookupTable (x.fastHash dReq.Hostname) = none →
        d.MatchRequest x first dReq = (DNSResult.empty, false)) ∧
      (confirmedRules x d dReq.Hostname = [] →
        d.MatchRequest x first dReq = (DNSResult.empty, false)) := by
  have h := MatchRequest_of_no_network x d first dReq ha hne hn
  have hempty : confirmedRules x d dReq.Hostname = [] →
      d.MatchRequest x first dReq = (DNSResult.empty, false) := by
    intro hc
    rw [h]
    unfold hostAnswer
    rw [hc]
    rfl
  refine ⟨h, ?_, ?_, hempty⟩
  · rw [h]
    unfold hostAnswer
    cases confirmedRules x d dReq.Hostname <;> simp
  · intro hb
    apply hempty
    unfold confirmedRules
    rw [hb]
    rfl

/-- C18 at the request `requestOrg` on the example engine: of the bucket [0, 1, 3, 8]
the rule of index 1 is a hash collision and index 8 retrieves no rule; the
rule of index 0 has an IPv4 address, the rule of index 3 an IPv6 one. -/
theorem MatchRequest_host_rules_witness :
    (requestOrg.Answer = false ∧ requestOrg.Hostname ≠ [] ∧
      exampleEngine.lookupTable (exampleDeps.fastHash requestOrg.Hostname) = some [0, 1, 3, 8] ∧
      hostAnswer exampleDeps exampleEngine requestOrg.Hostname =
        ({ NetworkRule := none, HostRulesV4 := [hostOrg], HostRulesV6 := [hostOrg6],
           IPRule := none }, true)) ∧
      (exampleEngine.MatchRequest exampleDeps 0 requestOrg =
          hostAnswer exampleDeps exampleEngine requestOrg.Hostname ∧
        ((exampleEngine.MatchRequest exampleDeps 0 requestOrg).2 = true ↔
          confirmedRules exampleDeps exampleEngine requestOrg.Hostname ≠ []) ∧
        (exampleEngine.lookupTable (exampleDeps.fastHash requestOrg.Hostname) = none →
          exampleEngine.MatchRequest exampleDeps 0 requestOrg = (DNSResult.empty, false)) ∧
        (confirmedRules exampleDeps exampleEngine requestOrg.Hostname = [] →
          exampleEngine.MatchRequest exampleDeps 0 requestOrg = (DNSResult.empty, false))) :=
  ⟨⟨rfl, by decide, by decide, by decide⟩,
    MatchRequest_host_rules exampleDeps exampleEngine 0 requestOrg rfl (by decide) (by decide)⟩

/-- The bucket under the hash `k` after the loop of `addRule`: untouched when
no hostname of the rule has the hash `k`, else the earlier bucket followed by
one `storageIdx` for each hostname with that hash. -/
theorem addRuleLoop_eq {NE NR : Type} (x : Deps NE NR) (storageIdx : Int) (k : Nat) :
    ∀ (hs : List GoString) (t : Nat → Option (List Int)),
    addRuleLoop x storageIdx hs t k =
      if hs.countP (fun h => x.fastHash h = k) = 0 then t k
      else some ((t k).getD [] ++
        List.replicate (hs.countP fun h => x.fastHash h = k) storageIdx) := by
  intro hs
  induction hs with
  | nil => intro t; simp [addRuleLoop]
  | cons h hs ih =>
    intro t
    rw [addRuleLoop, ih]
    by_cases hk : x.fastHash h = k
    · have hc : (h :: hs).countP (fun h => x.fastHash h = k) =
          hs.countP (fun h => x.fastHash h = k) + 1 := by
        rw [List.countP_cons_of_pos]
        simpa using hk
      rw [hc, if_neg (Nat.succ_ne_zero _), if_pos hk.symm]
      split_ifs with h0
      · rw [h0, hk]
        rfl
      · rw [hk, Option.getD_some, List.append_assoc, List.replicate_succ]
        rfl
    · have hc : (h :: hs).countP (fun h => x.fastHash h = k) =
          hs.countP (fun h => x.fastHash h = k) := by
        rw [List.countP_cons_of_neg]
        simpa using hk
      have hk' : ¬k = x.fastHash h := fun h' => hk h'.symm
      rw [hc, if_neg hk']

/-- C19: after `addRule(hostRule, idx)` the bucket of the hash of every
hostname of the rule contains `idx`; a bucket that existed keeps its earlier
indices in their order, followed only by copies of `idx`; the bucket under a
hash of no hostname of the rule is as before; and `RulesCount` has grown by
one, however many hostnames the rule lists. -/
theorem addRule_buckets {NE NR : Type} (x : Deps NE NR) (d : DNSEngine NE NR)
    (hostRule : HostRule) (idx : Int) :
    (∀ h ∈ hostRule.Hostnames,
        ∃ l, (d.addRule x hostRule idx).lookupTable (x.fastHash h) = some l ∧ idx ∈ l) ∧
      (∀ k l, d.lookupTable k = some l →
        ∃ n, (d.addRule x hostRule idx).lookupTable k = some (l ++ List.replicate n idx)) ∧
      (∀ k, d.lookupTable k = none →
        (d.addRule x hostRule idx).lookupTable k = none ∨
        ∃ n, (d.addRule x hostRule idx).lookupTable k = some (List.replicate n idx)) ∧
      (∀ k, (∀ h ∈ hostRule.Hostnames, x.fastHash h ≠ k) →
        (d.addRule x hostRule idx).lookupTable k = d.lookupTable k) ∧
      (d.addRule x hostRule idx).RulesCount = d.RulesCount + 1 := by
  have hl : ∀ k, (d.addRule x hostRule idx).lookupTable k =
      addRuleLoop x idx hostRule.Hostnames d.lookupTable k := fun _ => rfl
  refine ⟨?_, ?_, ?_, ?_, rfl⟩
  · intro h hh
    have hpos : 0 < hostRule.Hostnames.countP (fun h' => x.fastHash h' = x.fastHash h) :=
      List.countP_pos_iff.mpr ⟨h, hh, by simp⟩
    rw [hl, addRuleLoop_eq, if_neg (by omega)]
    refine ⟨_, rfl, ?_⟩
    rw [List.mem_append, List.mem_replicate]
    exact Or.inr ⟨by omega, rfl⟩
  · intro k l hk
    rw [hl, addRuleLoop_eq, hk]
    split_ifs with h0
    · exact ⟨0, by simp⟩
    · exact ⟨_, rfl⟩
  · intro k hk
    rw [hl, addRuleLoop_eq, hk]
    split_ifs with h0
    · exact Or.inl rfl
    · exact Or.inr ⟨_, rfl⟩
  · intro k hk
    have h0 : hostRule.Hostnames.countP (fun h => x.fastHash h = k) = 0 := by
      rw [List.countP_eq_zero]
      intro h hh
      simpa using hk h hh
    rw [hl, addRuleLoop_eq, if_pos h0]

/-- C19 at the rule `hostAds` with its two hostnames, of the hashes 15 and 19, added
to the example engine under the index 9: both buckets end with 9, the bucket
of hash 11 is as before, and `RulesCount` goes from 5 to 6. -/
theorem addRule_buckets_witness :
    ((exampleEngine.addRule exampleDeps hostAds 9).lookupTable 15 = some [4, 9] ∧
      (exampleEngine.addRule exampleDeps hostAds 9).lookupTable 19 = some [4, 9] ∧
      (exampleEngine.addRule exampleDeps hostAds 9).lookupTable 11 = some [0, 1, 3, 8] ∧
      (exampleEngine.addRule exampleDeps hostAds 9).RulesCount = 6) ∧
      ((∀ h ∈ hostAds.Hostnames, ∃ l,
          (exampleEngine.addRule exampleDeps hostAds 9).lookupTable (exampleDeps.fastHash h) =
            some l ∧ 9 ∈ l) ∧
        (∀ k l, exampleEngine.lookupTable k = some l →
          ∃ n, (exampleEngine.addRule exampleDeps hostAds 9).lookupTable k =
            some (l ++ List.replicate n 9)) ∧
        (∀ k, exampleEngine.lookupTable k = none →
          (exampleEngine.addRule exampleDeps hostAds 9).lookupTable k = none ∨
          ∃ n, (exampleEngine.addRule exampleDeps hostAds 9).lookupTable k =
            some (List.replicate n 9)) ∧
        (∀ k, (∀ h ∈ hostAds.Hostnames, exampleDeps.fastHash h ≠ k) →
          (exampleEngine.addRule exampleDeps hostAds 9).lookupTable k =
            exampleEngine.lookupTable k) ∧
        (exampleEngine.addRule exampleDeps hostAds 9).RulesCount = exampleEngine.RulesCount + 1) :=
  ⟨⟨by decide, by decide, by decide, by decide⟩,
    addRule_buckets exampleDeps exampleEngine hostAds 9⟩

/-- With `Answer` true and no match of the network engine, `MatchRequest`
returns the rule of `IPEngine.Match` and true for every non-empty hostname;
the host rule index is not consulted. -/
theorem MatchRequest_of_answer {NE NR : Type} (x : Deps NE NR) (d : DNSEngine NE NR)
    (first : Nat) (dReq : DNSRequest) (ha : dReq.Answer = true) (hne : dReq.Hostname ≠ [])
    (hn : (x.networkMatch d.networkEngine
      { Hostname := dReq.Hostname, SortedClientTags := dReq.SortedClientTags,
        ClientIP := dReq.ClientIP, ClientName := dReq.ClientName }).2 = false) :
    d.MatchRequest x first dReq =
      ({ NetworkRule := none, HostRulesV4 := [], HostRulesV6 := [],
         IPRule := some (d.IPEngine.Match first dReq.Hostname).1 }, true) := by
  have hm : (d.IPEngine.Match first dReq.Hostname).2 = true := by
    unfold IPEngine.Match
    cases d.IPEngine.IPRangers with
    | none => rfl
    | some m => cases m <;> rfl
  unfold DNSEngine.MatchRequest
  rw [if_neg hne]
  simp only
  rcases hp : x.networkMatch d.networkEngine
      { Hostname := dReq.Hostname, SortedClientTags := dReq.SortedClientTags,
        ClientIP := dReq.ClientIP, ClientName := dReq.ClientName } with ⟨n, b⟩
  rw [hp] at hn
  simp only at hn
  subst hn
  rcases hq : d.IPEngine.Match first dReq.Hostname with ⟨ie, b⟩
  rw [hq] at hm
  simp only at hm
  subst hm
  simp only [ha, if_true]

/-- The function `NewDNSEngine` returns for the example storage, which holds no
IP rule: four host rules and one network rule are counted, and the bucket of
hash 11 holds the indices of the three rules for hostnames of length 11. -/
theorem NewDNSEngine_example :
    ∃ d, NewDNSEngine exampleDeps exampleStorage = .ret d ∧ d.RulesCount = 5 ∧
      d.networkEngine = [str "ads.example.org"] ∧ d.lookupTable 11 = some [0, 1, 3] ∧
      d.lookupTable 15 = some [4] ∧ d.lookupTable 19 = some [4] ∧ d.lookupTable 12 = none ∧
      d.IPEngine = IPEngine.zero :=
  ⟨_, rfl, by decide, by decide, by decide, by decide, by decide, by decide, by decide⟩

end Urlfilter
